import Mathlib

/-!
Verification development for the adjustment solver of the
financial-index-precision-fix repository (src/index_precision_fix.py).

The solver `calculate_safe_adjustment` works on Python `decimal.Decimal`
values with a global context precision of 50 significant decimal digits
(`getcontext().prec = 50`), default rounding ROUND_HALF_EVEN for the
arithmetic operations, and an explicit ROUND_UP (away from zero) quantize
step.  A finite `Decimal` is a signed integer coefficient times a power of
ten; we embed it as the structure `Dec` below, with arithmetic implemented
on integers exactly as the decimal specification prescribes:

* `+`, `-`, `*`, `/` produce the exact result correctly rounded to 50
  significant digits (half-even);
* `quantize(q, ROUND_UP)` with `q = 1e-N` produces coefficient
  `ceil(|v| * 10^N)` with the sign of `v` reattached, and signals
  `InvalidOperation` (modelled as `none`) when that coefficient would
  exceed 50 digits;
* `int(...)` truncates toward zero.

The map `val : Dec → ℚ` gives the rational value of an embedded decimal;
all specification lemmas are phrased through it.
-/

namespace IPF

/-! ## Digit length of a natural number -/

/-- Fuel-driven digit counter; `dlAux f n` is the number of base-10 digits
of `n` whenever `n ≤ f`. -/
def dlAux : ℕ → ℕ → ℕ
  | 0, _ => 0
  | f+1, n => if n = 0 then 0 else dlAux f (n / 10) + 1

/-- Number of base-10 digits of `n` (0 for 0). -/
def digLen (n : ℕ) : ℕ := dlAux n n

lemma dlAux_zero (f : ℕ) : dlAux f 0 = 0 := by cases f <;> simp [dlAux]

lemma dlAux_spec : ∀ f n : ℕ, n ≤ f → 0 < n →
    10 ^ (dlAux f n - 1) ≤ n ∧ n < 10 ^ dlAux f n := by
  intro f
  induction f with
  | zero => intro n hle hpos; omega
  | succ f ih =>
    intro n hle hpos
    have hne : n ≠ 0 := Nat.pos_iff_ne_zero.mp hpos
    rw [dlAux, if_neg hne]
    by_cases h10 : n / 10 = 0
    · have hlt : n < 10 := (Nat.div_eq_zero_iff (by norm_num)).mp h10
      rw [h10, dlAux_zero]
      exact ⟨by simpa using hpos, by simpa using hlt⟩
    · have hq : 0 < n / 10 := Nat.pos_iff_ne_zero.mpr h10
      have hqle : n / 10 ≤ f := by
        have := Nat.div_lt_self hpos (by norm_num : 1 < 10)
        omega
      obtain ⟨h1, h2⟩ := ih (n / 10) hqle hq
      have hd1 : 1 ≤ dlAux f (n / 10) := by
        by_contra hco
        have : dlAux f (n / 10) = 0 := by omega
        rw [this] at h2; simp at h2; omega
      constructor
      · have : 10 ^ (dlAux f (n / 10)) ≤ 10 * (n / 10) := by
          calc 10 ^ (dlAux f (n / 10)) = 10 * 10 ^ (dlAux f (n / 10) - 1) := by
                rw [← pow_succ']
                congr 1
                omega
            _ ≤ 10 * (n / 10) := by exact Nat.mul_le_mul_left 10 h1
        have hmul : 10 * (n / 10) ≤ n := Nat.mul_div_le n 10
        simpa using le_trans this hmul
      · have hmod : n < 10 * (n / 10) + 10 := by
          have := Nat.div_add_mod n 10
          have := Nat.mod_lt n (show 0 < 10 by norm_num)
          omega
        calc n < 10 * (n / 10) + 10 := hmod
          _ ≤ 10 * (10 ^ dlAux f (n / 10) - 1) + 10 := by
              have : n / 10 ≤ 10 ^ dlAux f (n / 10) - 1 := by omega
              exact Nat.add_le_add_right (Nat.mul_le_mul_left 10 this) 10
          _ ≤ 10 ^ (dlAux f (n / 10) + 1) := by
              have hp : 1 ≤ 10 ^ dlAux f (n / 10) := Nat.one_le_pow _ _ (by norm_num)
              rw [pow_succ]
              omega

lemma digLen_spec (n : ℕ) (h : 0 < n) :
    10 ^ (digLen n - 1) ≤ n ∧ n < 10 ^ digLen n :=
  dlAux_spec n n le_rfl h

lemma digLen_pos (n : ℕ) (h : 0 < n) : 1 ≤ digLen n := by
  by_contra hco
  have h0 : digLen n = 0 := by omega
  have := (digLen_spec n h).2
  rw [h0] at this; simp at this; omega

/-! ## Half-even rounding of an integer fraction -/

/-- Round `a / b` (for `b ≠ 0`) to the nearest integer, ties to even.
This is the value-level content of decimal's ROUND_HALF_EVEN. -/
def rndIntHE (a b : ℤ) : ℤ :=
  let bb : ℤ := b.natAbs
  let aa : ℤ := if b < 0 then -a else a
  let q := Int.ediv aa bb
  let r := aa - q * bb
  if 2 * r < bb then q else if bb < 2 * r then q + 1 else if q % 2 = 0 then q else q + 1

/-! ## Embedded decimal values -/

/-- A finite decimal value: coefficient `m` times `10 ^ e`.  This mirrors
the coefficient/exponent representation of Python `decimal.Decimal`. -/
structure Dec where
  m : ℤ
  e : ℤ
deriving DecidableEq

/-- Rational value of an embedded decimal. -/
def val (d : Dec) : ℚ := (d.m : ℚ) * (10 : ℚ) ^ d.e

/-- Exact sum of two decimals (before context rounding). -/
def decAdd (x y : Dec) : Dec :=
  if x.e ≤ y.e then ⟨x.m + y.m * 10 ^ (y.e - x.e).toNat, x.e⟩
  else ⟨y.m + x.m * 10 ^ (x.e - y.e).toNat, y.e⟩

/-- Exact negation. -/
def decNeg (y : Dec) : Dec := ⟨-y.m, y.e⟩

/-- Exact product of two decimals (before context rounding). -/
def decMul (x y : Dec) : Dec := ⟨x.m * y.m, x.e + y.e⟩

/-- Adjusted exponent: the exponent of the leading digit (meaningful for
nonzero coefficients). -/
def adjExpD (d : Dec) : ℤ := d.e + digLen d.m.natAbs - 1

/-- Round a decimal to the context precision of 50 significant digits,
half-even: the result is the exact value correctly rounded. -/
def rnd50 (d : Dec) : Dec :=
  if d.m = 0 then ⟨0, 0⟩
  else
    let k : ℤ := adjExpD d - 49
    if k ≤ d.e then d else ⟨rndIntHE d.m ((10 : ℤ) ^ (k - d.e).toNat), k⟩

/-- Context addition: exact sum rounded to 50 significant digits. -/
def add50 (x y : Dec) : Dec := rnd50 (decAdd x y)

/-- Context subtraction. -/
def sub50 (x y : Dec) : Dec := rnd50 (decAdd x (decNeg y))

/-- Context multiplication. -/
def mul50 (x y : Dec) : Dec := rnd50 (decMul x y)

/-- Boolean test for `10 ^ d * b ≤ a` on naturals `a`, `b`. -/
def tenPowLeInt (d : ℤ) (a b : ℕ) : Bool :=
  if 0 ≤ d then b * 10 ^ d.toNat ≤ a else b ≤ a * 10 ^ (-d).toNat

/-- Context division (used with nonzero divisor): the exact quotient
correctly rounded to 50 significant digits, half-even. -/
def div50 (x y : Dec) : Dec :=
  if x.m = 0 then ⟨0, 0⟩
  else
    let da : ℤ := digLen x.m.natAbs
    let db : ℤ := digLen y.m.natAbs
    let e0 : ℤ := (x.e - y.e) + da - db
    let aexp : ℤ := if tenPowLeInt (da - db) x.m.natAbs y.m.natAbs then e0 else e0 - 1
    let k : ℤ := aexp - 49
    let s : ℤ := x.e - y.e - k
    if 0 ≤ s then ⟨rndIntHE (x.m * 10 ^ s.toNat) y.m, k⟩
    else ⟨rndIntHE x.m (y.m * 10 ^ (-s).toNat), k⟩

/-- Quantize to exponent `-N` with ROUND_UP (away from zero): coefficient
`ceil(|v| * 10^N)`, sign of `v` reattached; `none` models the
`InvalidOperation` raised when the coefficient would exceed the context
precision of 50 digits. -/
def qntzUp (N : ℕ) (v : Dec) : Option Dec :=
  let t : ℤ := v.e + N
  let a : ℕ := v.m.natAbs
  let c : ℕ :=
    if 0 ≤ t then a * 10 ^ t.toNat
    else (a + 10 ^ (-t).toNat - 1) / 10 ^ (-t).toNat
  if (c : ℤ) < 10 ^ 50 then some ⟨if v.m < 0 then -(c : ℤ) else (c : ℤ), -(N : ℤ)⟩
  else none

/-- Truncation toward zero of a decimal value, as Python `int(...)`. -/
def truncD (d : Dec) : ℤ :=
  if 0 ≤ d.e then d.m * 10 ^ d.e.toNat else Int.tdiv d.m ((10 : ℤ) ^ (-d.e).toNat)

/-- Mathematical truncation toward zero on rationals. -/
def truncQ (x : ℚ) : ℤ := if x < 0 then ⌈x⌉ else ⌊x⌋

/-! ## The solver, translated from `calculate_safe_adjustment` -/

/-- Source constant `DECIMAL_PLACES = 13`. -/
def DECIMAL_PLACES : ℕ := 13

/-- `Decimal(n)` for an integer `n` (exact). -/
def decInt (n : ℤ) : Dec := ⟨n, 0⟩

/-- `Decimal('1e-N')`: the reporting quantum `q`. -/
def quantum (N : ℕ) : Dec := ⟨1, -(N : ℤ)⟩

/-- `Decimal('1e-(N+2)')`: the safety epsilon `EPS`. -/
def epsD (N : ℕ) : Dec := ⟨1, -((N : ℤ) + 2)⟩

/-- `lower_bound = (Td / Bd) - Decimal(1)` of the source. -/
def lower_bound (B T : ℤ) : Dec := sub50 (div50 (decInt T) (decInt B)) (decInt 1)

/-- The value `lower_bound + EPS` that gets quantized (both operations at
context precision). -/
def nudged (B T : ℤ) (N : ℕ) : Dec := add50 (lower_bound B T) (epsD N)

/-- `candidate_p = (lower_bound + EPS).quantize(q, ROUND_UP)` of the source;
`none` models the quantize overflow exception. -/
def candidate0 (B T : ℤ) (N : ℕ) : Option Dec := qntzUp N (nudged B T N)

/-- `trial_qty = Bd * (Decimal(1) + candidate_p)` of the source. -/
def trialOf (B : ℤ) (p : Dec) : Dec := mul50 (decInt B) (add50 (decInt 1) p)

/-- Body of the `try:` block of `calculate_safe_adjustment` after the
`None`/zero guards: compute the candidate, run the validation trial, bump
by one quantum when the trial int undershoots the target int, and return
`(candidate_p, int(trial_qty), int(trial_qty) == T)`.  A `none` result
models an exception escaping to the `except` handler. -/
def calcBody (B T : ℤ) (N : ℕ) : Option (Dec × ℤ × Bool) :=
  (candidate0 B T N).bind fun c0 =>
    if truncD (trialOf B c0) < truncD (decInt T) then
      (qntzUp N (add50 c0 (quantum N))).map fun c1 =>
        (c1, truncD (trialOf B c1), decide (truncD (trialOf B c1) = T))
    else some (c0, truncD (trialOf B c0), decide (truncD (trialOf B c0) = T))

/-- `calculate_safe_adjustment(B, T, N)` of the source, on inputs that are
`None` or exact integers (the values produced by `safe_decimal_int` and
the holdings lookups): `None` guards, zero-base guard, then the solver
body with the catch-all `except` turning any raised exception into
`(None, None, False)`. -/
def calculate_safe_adjustment (B T : Option ℤ) (N : ℕ) : Option Dec × Option ℤ × Bool :=
  match B, T with
  | some b, some t =>
    if b = 0 then (none, none, false)
    else
      match calcBody b t N with
      | some (p, pr, ok) => (some p, some pr, ok)
      | none => (none, none, false)
  | _, _ => (none, none, false)

/-! ## Input conversion (`safe_decimal_int`) -/

/-- Input universe of `safe_decimal_int`: a missing value (`pd.isna`), a
well-formed numeric value whose decimal string denotes the rational `v`,
or a value whose conversion raises (malformed). -/
inductive PyValue where
  | na : PyValue
  | numeric : ℚ → PyValue
  | malformed : PyValue

/-- `safe_decimal_int` of the source: `None` for missing values,
`int(Decimal(str(x)))` — truncation toward zero — for numeric values,
`None` when conversion raises. -/
def safe_decimal_int : PyValue → Option ℤ
  | .na => none
  | .numeric v => some (truncQ v)
  | .malformed => none

/-! ## Powers of ten -/

lemma tenq_pos (e : ℤ) : (0 : ℚ) < (10 : ℚ) ^ e := zpow_pos (by norm_num) e

lemma tenq_ne (e : ℤ) : ((10 : ℚ) ^ e) ≠ 0 := ne_of_gt (tenq_pos e)

lemma tenq_add (a b : ℤ) : (10 : ℚ) ^ (a + b) = (10 : ℚ) ^ a * (10 : ℚ) ^ b :=
  zpow_add₀ (by norm_num) a b

lemma tenq_mono {a b : ℤ} (h : a ≤ b) : (10 : ℚ) ^ a ≤ (10 : ℚ) ^ b :=
  zpow_le_zpow_right₀ (by norm_num) h

lemma tenq_lt {a b : ℤ} (h : a < b) : (10 : ℚ) ^ a < (10 : ℚ) ^ b :=
  zpow_lt_zpow_right₀ (by norm_num) h

lemma tenq_natCast (n : ℕ) : (10 : ℚ) ^ (n : ℤ) = ((10 ^ n : ℕ) : ℚ) := by
  push_cast
  exact zpow_natCast 10 n

lemma tenq_toNat {e : ℤ} (h : 0 ≤ e) : ((10 ^ e.toNat : ℕ) : ℚ) = (10 : ℚ) ^ e := by
  rw [← tenq_natCast, Int.toNat_of_nonneg h]

lemma tenq_toNat_neg {e : ℤ} (h : e < 0) : ((10 ^ (-e).toNat : ℕ) : ℚ) = (10 : ℚ) ^ (-e) := by
  rw [← tenq_natCast, Int.toNat_of_nonneg (by omega)]

lemma tenq_int_pow (n : ℕ) : ((10 ^ n : ℤ) : ℚ) = (10 : ℚ) ^ (n : ℤ) := by
  rw [tenq_natCast]
  push_cast
  rfl

lemma tenq_mul_cancel (k : ℤ) : (10 : ℚ) ^ (-k) * (10 : ℚ) ^ k = 1 := by
  rw [← tenq_add]
  simp

lemma tenq_mul_cancel_right (k : ℤ) : (10 : ℚ) ^ k * (10 : ℚ) ^ (-k) = 1 := by
  rw [← tenq_add]
  simp

/-! ## Specification of half-even integer-fraction rounding -/

lemma rndIntHE_core (aa bb : ℤ) (hbb : 0 < bb) :
    |((if 2 * (aa - Int.ediv aa bb * bb) < bb then Int.ediv aa bb
       else if bb < 2 * (aa - Int.ediv aa bb * bb) then Int.ediv aa bb + 1
       else if Int.ediv aa bb % 2 = 0 then Int.ediv aa bb
       else Int.ediv aa bb + 1 : ℤ) : ℚ) - (aa : ℚ) / (bb : ℚ)| ≤ 1 / 2 := by
  set q := Int.ediv aa bb with hq
  set r := aa - q * bb with hrdef
  have hr_eq : r = aa % bb := by
    rw [hrdef, Int.emod_def, hq]
    show aa - Int.ediv aa bb * bb = aa - bb * Int.ediv aa bb
    ring
  have hr0 : 0 ≤ r := by rw [hr_eq]; exact Int.emod_nonneg aa (ne_of_gt hbb)
  have hrlt : r < bb := by rw [hr_eq]; exact Int.emod_lt_of_pos aa hbb
  have hbbq : (0 : ℚ) < (bb : ℚ) := by exact_mod_cast hbb
  have hval : (aa : ℚ) / bb = q + r / bb := by
    have : (aa : ℚ) = q * bb + r := by
      have : aa = q * bb + r := by rw [hrdef]; ring
      exact_mod_cast this
    rw [this]
    field_simp
  rw [hval]
  by_cases h1 : 2 * r < bb
  · rw [if_pos h1]
    have : (q : ℚ) - (q + r / bb) = -(r / bb) := by ring
    rw [this, abs_neg, abs_of_nonneg (by positivity)]
    rw [div_le_div_iff₀ hbbq (by norm_num : (0:ℚ) < 2)]
    have : (2 * r : ℚ) ≤ bb := by exact_mod_cast le_of_lt h1
    linarith
  · rw [if_neg h1]
    have h2r : bb ≤ 2 * r := by omega
    have habs : ∀ c : ℤ, c = q + 1 →
        |((c : ℤ) : ℚ) - (q + r / bb)| = (bb - r) / bb := by
      intro c hc
      subst hc
      have : ((q + 1 : ℤ) : ℚ) - (q + r / bb) = (bb - r) / bb := by
        push_cast
        field_simp
        ring
      rw [this, abs_of_nonneg]
      apply div_nonneg _ (le_of_lt hbbq)
      have : (r : ℚ) < bb := by exact_mod_cast hrlt
      linarith
    have hup : ((bb : ℚ) - r) / bb ≤ 1 / 2 := by
      rw [div_le_div_iff₀ hbbq (by norm_num : (0:ℚ) < 2)]
      have : (bb : ℚ) ≤ 2 * r := by exact_mod_cast h2r
      linarith
    by_cases h2 : bb < 2 * r
    · rw [if_pos h2, habs _ rfl]
      exact hup
    · rw [if_neg h2]
      have htie : 2 * r = bb := by omega
      by_cases h3 : q % 2 = 0
      · rw [if_pos h3]
        have : (q : ℚ) - (q + r / bb) = -(r / bb) := by ring
        rw [this, abs_neg, abs_of_nonneg (by positivity)]
        rw [div_le_div_iff₀ hbbq (by norm_num : (0:ℚ) < 2)]
        have : (2 * r : ℚ) = bb := by exact_mod_cast htie
        linarith
      · rw [if_neg h3, habs _ rfl]
        exact hup

lemma rndIntHE_ratio (a b : ℤ) (_hb : b ≠ 0) :
    ((if b < 0 then -a else a : ℤ) : ℚ) / ((b.natAbs : ℤ) : ℚ) = (a : ℚ) / (b : ℚ) := by
  rcases lt_or_ge b 0 with h | h
  · have hbb : ((b.natAbs : ℤ) : ℚ) = -(b : ℚ) := by
      have : (b.natAbs : ℤ) = -b := by
        rw [Int.ofNat_natAbs_of_nonpos (le_of_lt h)]
      rw [this]
      push_cast
      ring
    rw [if_pos h, hbb]
    push_cast
    rw [neg_div_neg_eq]
  · have hbb : ((b.natAbs : ℤ) : ℚ) = (b : ℚ) := by
      rw [Int.natAbs_of_nonneg h]
    rw [if_neg (not_lt.mpr h), hbb]

lemma rndIntHE_err (a b : ℤ) (hb : b ≠ 0) :
    |(rndIntHE a b : ℚ) - (a : ℚ) / (b : ℚ)| ≤ 1 / 2 := by
  have hbb : (0 : ℤ) < (b.natAbs : ℤ) := by
    exact_mod_cast Int.natAbs_pos.mpr hb
  have h := rndIntHE_core (if b < 0 then -a else a) (b.natAbs : ℤ) hbb
  rw [rndIntHE_ratio a b hb] at h
  exact h

lemma rndIntHE_exact (a b c : ℤ) (hb : b ≠ 0) (h : a = c * b) : rndIntHE a b = c := by
  unfold rndIntHE
  have hbb : (0 : ℤ) < (b.natAbs : ℤ) := by
    exact_mod_cast Int.natAbs_pos.mpr hb
  have haa : (if b < 0 then -a else a) = c * (b.natAbs : ℤ) := by
    rcases lt_or_ge b 0 with hneg | hpos
    · rw [if_pos hneg, h, Int.ofNat_natAbs_of_nonpos (le_of_lt hneg)]
      ring
    · rw [if_neg (not_lt.mpr hpos), h, Int.natAbs_of_nonneg hpos]
  simp only [haa]
  have hdiv : Int.ediv (c * (b.natAbs : ℤ)) (b.natAbs : ℤ) = c :=
    Int.mul_ediv_cancel c (ne_of_gt hbb)
  simp only [hdiv]
  have : c * (b.natAbs : ℤ) - c * (b.natAbs : ℤ) = 0 := by ring
  rw [this]
  rw [if_pos (by linarith : (2 : ℤ) * 0 < (b.natAbs : ℤ))]

/-! ## Values of the decimal operations -/

lemma tenq_pow_toNat (e : ℤ) (h : 0 ≤ e) : (10 : ℚ) ^ e.toNat = (10 : ℚ) ^ e := by
  rw [← zpow_natCast (10 : ℚ) e.toNat, Int.toNat_of_nonneg h]

lemma val_mk (m e : ℤ) : val ⟨m, e⟩ = (m : ℚ) * (10 : ℚ) ^ e := rfl

lemma val_decInt (n : ℤ) : val (decInt n) = (n : ℚ) := by
  simp [decInt, val]

lemma val_decNeg (y : Dec) : val (decNeg y) = -val y := by
  simp [decNeg, val]

lemma val_zero_iff (d : Dec) : val d = 0 ↔ d.m = 0 := by
  unfold val
  constructor
  · intro h
    rcases mul_eq_zero.mp h with h | h
    · exact_mod_cast h
    · exact absurd h (tenq_ne d.e)
  · intro h
    rw [h]
    simp

lemma val_neg_iff (d : Dec) : val d < 0 ↔ d.m < 0 := by
  unfold val
  constructor
  · intro h
    by_contra hc
    push_neg at hc
    have : (0 : ℚ) ≤ (d.m : ℚ) * (10 : ℚ) ^ d.e :=
      mul_nonneg (by exact_mod_cast hc) (le_of_lt (tenq_pos d.e))
    linarith
  · intro h
    have : (d.m : ℚ) < 0 := by exact_mod_cast h
    exact mul_neg_of_neg_of_pos this (tenq_pos d.e)

lemma val_decAdd (x y : Dec) : val (decAdd x y) = val x + val y := by
  unfold decAdd
  rcases le_or_lt x.e y.e with h | h
  · rw [if_pos h, val_mk]
    have hte : (10 : ℚ) ^ (y.e - x.e) * (10 : ℚ) ^ x.e = (10 : ℚ) ^ y.e := by
      rw [← tenq_add, sub_add_cancel]
    push_cast
    rw [tenq_pow_toNat _ (by omega : (0 : ℤ) ≤ y.e - x.e)]
    unfold val
    calc ((x.m : ℚ) + y.m * (10 : ℚ) ^ (y.e - x.e)) * (10 : ℚ) ^ x.e
        = (x.m : ℚ) * (10 : ℚ) ^ x.e
          + (y.m : ℚ) * ((10 : ℚ) ^ (y.e - x.e) * (10 : ℚ) ^ x.e) := by ring
      _ = (x.m : ℚ) * (10 : ℚ) ^ x.e + (y.m : ℚ) * (10 : ℚ) ^ y.e := by rw [hte]
  · rw [if_neg (not_le.mpr h), val_mk]
    have hte : (10 : ℚ) ^ (x.e - y.e) * (10 : ℚ) ^ y.e = (10 : ℚ) ^ x.e := by
      rw [← tenq_add, sub_add_cancel]
    push_cast
    rw [tenq_pow_toNat _ (by omega : (0 : ℤ) ≤ x.e - y.e)]
    unfold val
    calc ((y.m : ℚ) + x.m * (10 : ℚ) ^ (x.e - y.e)) * (10 : ℚ) ^ y.e
        = (x.m : ℚ) * ((10 : ℚ) ^ (x.e - y.e) * (10 : ℚ) ^ y.e)
          + (y.m : ℚ) * (10 : ℚ) ^ y.e := by ring
      _ = (x.m : ℚ) * (10 : ℚ) ^ x.e + (y.m : ℚ) * (10 : ℚ) ^ y.e := by rw [hte]

lemma val_decMul (x y : Dec) : val (decMul x y) = val x * val y := by
  unfold decMul val
  push_cast
  rw [tenq_add]
  ring

/-! ## Specification of rounding to 50 significant digits -/

lemma abs_val (d : Dec) : |val d| = (d.m.natAbs : ℚ) * (10 : ℚ) ^ d.e := by
  unfold val
  rw [abs_mul, abs_of_pos (tenq_pos d.e)]
  congr 1
  rw [Int.cast_natAbs]
  push_cast
  rfl

lemma adjExpD_bounds (d : Dec) (h : d.m ≠ 0) :
    (10 : ℚ) ^ adjExpD d ≤ |val d| ∧ |val d| < (10 : ℚ) ^ (adjExpD d + 1) := by
  have hpos : 0 < d.m.natAbs := Int.natAbs_pos.mpr h
  obtain ⟨h1, h2⟩ := digLen_spec d.m.natAbs hpos
  have hL : 1 ≤ digLen d.m.natAbs := digLen_pos _ hpos
  rw [abs_val]
  constructor
  · have hsplit : (10 : ℚ) ^ adjExpD d
        = (10 : ℚ) ^ ((digLen d.m.natAbs : ℤ) - 1) * (10 : ℚ) ^ d.e := by
      rw [← tenq_add]
      unfold adjExpD
      congr 1
      ring
    rw [hsplit]
    apply mul_le_mul_of_nonneg_right _ (le_of_lt (tenq_pos d.e))
    have hcast : (10 : ℚ) ^ ((digLen d.m.natAbs : ℤ) - 1)
        = ((10 ^ (digLen d.m.natAbs - 1) : ℕ) : ℚ) := by
      rw [← tenq_natCast]
      congr 1
      omega
    rw [hcast]
    exact_mod_cast h1
  · have hsplit : (10 : ℚ) ^ (adjExpD d + 1)
        = (10 : ℚ) ^ ((digLen d.m.natAbs : ℤ)) * (10 : ℚ) ^ d.e := by
      rw [← tenq_add]
      unfold adjExpD
      congr 1
      ring
    rw [hsplit]
    apply mul_lt_mul_of_pos_right _ (tenq_pos d.e)
    have hcast : (10 : ℚ) ^ ((digLen d.m.natAbs : ℤ))
        = ((10 ^ digLen d.m.natAbs : ℕ) : ℚ) := by
      rw [← tenq_natCast]
    rw [hcast]
    exact_mod_cast h2

lemma adjExpD_lt (d : Dec) (A : ℤ) (h : d.m ≠ 0) (hA : |val d| < (10 : ℚ) ^ A) :
    adjExpD d < A := by
  by_contra hc
  push_neg at hc
  have := le_trans (tenq_mono hc) (adjExpD_bounds d h).1
  linarith

lemma val_rnd50_exact (d : Dec) (mm ee : ℤ) (hval : val d = (mm : ℚ) * (10 : ℚ) ^ ee)
    (hmm : |mm| < 10 ^ 50) : val (rnd50 d) = val d := by
  unfold rnd50
  by_cases h0 : d.m = 0
  · rw [if_pos h0]
    have : val d = 0 := (val_zero_iff d).mpr h0
    rw [this, val_mk]
    simp
  · rw [if_neg h0]
    by_cases hk2 : adjExpD d - 49 ≤ d.e
    · rw [if_pos hk2]
    · rw [if_neg hk2]
      set k : ℤ := adjExpD d - 49 with hkdef
      have hub : |val d| < (10 : ℚ) ^ (ee + 50) := by
        rw [hval, abs_mul, abs_of_pos (tenq_pos ee)]
        have hcast : |(mm : ℚ)| < (10 : ℚ) ^ ((50 : ℕ) : ℤ) := by
          rw [← tenq_int_pow]
          exact_mod_cast hmm
        calc |(mm : ℚ)| * (10 : ℚ) ^ ee < (10 : ℚ) ^ ((50 : ℕ) : ℤ) * (10 : ℚ) ^ ee := by
              exact mul_lt_mul_of_pos_right hcast (tenq_pos ee)
          _ = (10 : ℚ) ^ (ee + 50) := by
              rw [← tenq_add]
              congr 1
              push_cast
              ring
      have hkee : k ≤ ee := by
        have := adjExpD_lt d (ee + 50) h0 hub
        omega
      have hkd : d.e < k := by omega
      have hbpos : (0 : ℤ) < (10 : ℤ) ^ (k - d.e).toNat := by positivity
      set c : ℤ := mm * 10 ^ (ee - k).toNat with hcdef
      have hdm : d.m = c * 10 ^ (k - d.e).toNat := by
        have hq : (d.m : ℚ) = (c : ℚ) * ((10 : ℤ) ^ (k - d.e).toNat : ℤ) := by
          have hmulq : (d.m : ℚ) * (10 : ℚ) ^ d.e = (mm : ℚ) * (10 : ℚ) ^ ee := hval
          have hstep : (d.m : ℚ) = (mm : ℚ) * (10 : ℚ) ^ (ee - d.e) := by
            have h1 : (d.m : ℚ) = (mm : ℚ) * (10 : ℚ) ^ ee * (10 : ℚ) ^ (-d.e) := by
              rw [← hmulq, mul_assoc, mul_comm ((10 : ℚ) ^ d.e), tenq_mul_cancel, mul_one]
            rw [h1, mul_assoc, ← tenq_add, show ee + -d.e = ee - d.e from by ring]
          rw [hstep, hcdef]
          push_cast
          rw [tenq_pow_toNat _ (by omega : (0 : ℤ) ≤ ee - k),
            tenq_pow_toNat _ (by omega : (0 : ℤ) ≤ k - d.e)]
          rw [mul_assoc, ← tenq_add]
          congr 1
          ring
        exact_mod_cast hq
      rw [val_mk, rndIntHE_exact d.m ((10 : ℤ) ^ (k - d.e).toNat) c (ne_of_gt hbpos) hdm]
      rw [hcdef, hval]
      push_cast
      rw [tenq_pow_toNat _ (by omega : (0 : ℤ) ≤ ee - k)]
      rw [mul_assoc, ← tenq_add]
      congr 1
      ring

lemma val_rnd50_err (d : Dec) (A : ℤ) (h : |val d| < (10 : ℚ) ^ A) :
    |val (rnd50 d) - val d| ≤ (10 : ℚ) ^ (A - 50) := by
  unfold rnd50
  by_cases h0 : d.m = 0
  · rw [if_pos h0]
    have hz : val d = 0 := (val_zero_iff d).mpr h0
    rw [hz, val_mk]
    simp
    positivity
  · rw [if_neg h0]
    by_cases hk2 : adjExpD d - 49 ≤ d.e
    · rw [if_pos hk2]
      simp
      positivity
    · rw [if_neg hk2]
      set k : ℤ := adjExpD d - 49 with hkdef
      have hkA : k ≤ A - 50 := by
        have := adjExpD_lt d A h0 h
        omega
      have hkd : d.e < k := by omega
      have hbpos : (0 : ℤ) < (10 : ℤ) ^ (k - d.e).toNat := by positivity
      have herr := rndIntHE_err d.m ((10 : ℤ) ^ (k - d.e).toNat) (ne_of_gt hbpos)
      have hratio : (d.m : ℚ) / (((10 : ℤ) ^ (k - d.e).toNat : ℤ) : ℚ)
          = val d * (10 : ℚ) ^ (-k) := by
        unfold val
        push_cast
        rw [tenq_pow_toNat _ (by omega : (0 : ℤ) ≤ k - d.e)]
        rw [div_eq_mul_inv, ← zpow_neg]
        rw [show -(k - d.e) = d.e + -k from by omega, mul_assoc, ← tenq_add]
      rw [hratio] at herr
      rw [val_mk]
      have hdist : |((rndIntHE d.m ((10 : ℤ) ^ (k - d.e).toNat) : ℤ) : ℚ) * (10 : ℚ) ^ k
          - val d|
          = |((rndIntHE d.m ((10 : ℤ) ^ (k - d.e).toNat) : ℤ) : ℚ)
              - val d * (10 : ℚ) ^ (-k)| * (10 : ℚ) ^ k := by
        rw [← abs_of_pos (tenq_pos k), ← abs_mul]
        congr 1
        rw [abs_of_pos (tenq_pos k), sub_mul, mul_assoc, tenq_mul_cancel, mul_one]
      rw [hdist]
      calc |((rndIntHE d.m ((10 : ℤ) ^ (k - d.e).toNat) : ℤ) : ℚ)
              - val d * (10 : ℚ) ^ (-k)| * (10 : ℚ) ^ k
          ≤ (1 / 2) * (10 : ℚ) ^ k := by
            exact mul_le_mul_of_nonneg_right herr (le_of_lt (tenq_pos k))
        _ ≤ (10 : ℚ) ^ k := by
            have := tenq_pos k
            linarith
        _ ≤ (10 : ℚ) ^ (A - 50) := by
            apply tenq_mono
            omega


/-! ## Specification of context division -/

lemma tenPowLeInt_spec (dd : ℤ) (a b : ℕ) (_hb : 0 < b) :
    tenPowLeInt dd a b = true ↔ (b : ℚ) * (10 : ℚ) ^ dd ≤ (a : ℚ) := by
  unfold tenPowLeInt
  rcases le_or_lt 0 dd with h | h
  · rw [if_pos h]
    simp only [decide_eq_true_eq]
    rw [← tenq_pow_toNat dd h]
    constructor
    · intro hle
      have hc : ((b * 10 ^ dd.toNat : ℕ) : ℚ) ≤ (a : ℚ) := by exact_mod_cast hle
      push_cast at hc
      exact hc
    · intro hle
      have hc : ((b * 10 ^ dd.toNat : ℕ) : ℚ) ≤ (a : ℚ) := by push_cast; exact hle
      exact_mod_cast hc
  · rw [if_neg (not_le.mpr h)]
    simp only [decide_eq_true_eq]
    constructor
    · intro hle
      have hc : (b : ℚ) ≤ (a : ℚ) * (10 : ℚ) ^ (-dd) := by
        have hc2 : ((b : ℕ) : ℚ) ≤ ((a * 10 ^ (-dd).toNat : ℕ) : ℚ) := by exact_mod_cast hle
        push_cast at hc2
        rw [tenq_pow_toNat (-dd) (by omega)] at hc2
        exact hc2
      calc (b : ℚ) * (10 : ℚ) ^ dd ≤ ((a : ℚ) * (10 : ℚ) ^ (-dd)) * (10 : ℚ) ^ dd :=
            mul_le_mul_of_nonneg_right hc (le_of_lt (tenq_pos dd))
        _ = (a : ℚ) := by rw [mul_assoc, tenq_mul_cancel, mul_one]
    · intro hle
      have hc : (b : ℚ) ≤ (a : ℚ) * (10 : ℚ) ^ (-dd) := by
        calc (b : ℚ) = (b : ℚ) * (10 : ℚ) ^ dd * (10 : ℚ) ^ (-dd) := by
              rw [mul_assoc, mul_comm ((10 : ℚ) ^ dd), tenq_mul_cancel, mul_one]
          _ ≤ (a : ℚ) * (10 : ℚ) ^ (-dd) :=
              mul_le_mul_of_nonneg_right hle (le_of_lt (tenq_pos (-dd)))
      have hc2 : ((b : ℕ) : ℚ) ≤ ((a * 10 ^ (-dd).toNat : ℕ) : ℚ) := by
        push_cast
        rw [tenq_pow_toNat (-dd) (by omega)]
        exact hc
      exact_mod_cast hc2

lemma rnd_scaled_err (num den k bound : ℤ) (ratio : ℚ) (hden : den ≠ 0)
    (hval : (num : ℚ) / (den : ℚ) = ratio * (10 : ℚ) ^ (-k)) (hk : k ≤ bound - 50) :
    |(rndIntHE num den : ℚ) * (10 : ℚ) ^ k - ratio| ≤ (10 : ℚ) ^ (bound - 50) := by
  have herr := rndIntHE_err num den hden
  rw [hval] at herr
  have hdist : |(rndIntHE num den : ℚ) * (10 : ℚ) ^ k - ratio|
      = |(rndIntHE num den : ℚ) - ratio * (10 : ℚ) ^ (-k)| * (10 : ℚ) ^ k := by
    rw [← abs_of_pos (tenq_pos k), ← abs_mul]
    congr 1
    rw [abs_of_pos (tenq_pos k), sub_mul, mul_assoc, tenq_mul_cancel, mul_one]
  rw [hdist]
  calc |(rndIntHE num den : ℚ) - ratio * (10 : ℚ) ^ (-k)| * (10 : ℚ) ^ k
      ≤ (1 / 2) * (10 : ℚ) ^ k :=
        mul_le_mul_of_nonneg_right herr (le_of_lt (tenq_pos k))
    _ ≤ (10 : ℚ) ^ k := by
        have := tenq_pos k
        linarith
    _ ≤ (10 : ℚ) ^ (bound - 50) := tenq_mono hk

lemma abs_ratio_eq (x y : Dec) :
    |val x / val y| = ((x.m.natAbs : ℚ) / (y.m.natAbs : ℚ)) * (10 : ℚ) ^ (x.e - y.e) := by
  rw [abs_div, abs_val, abs_val, ← div_mul_div_comm,
    ← zpow_sub₀ (by norm_num : (10 : ℚ) ≠ 0)]

lemma val_div50_err (x y : Dec) (A : ℤ) (hy : y.m ≠ 0)
    (hA : |val x / val y| < (10 : ℚ) ^ A) :
    |val (div50 x y) - val x / val y| ≤ (10 : ℚ) ^ (A - 50) := by
  by_cases hx : x.m = 0
  · rw [div50, if_pos hx]
    have hvx : val x = 0 := (val_zero_iff x).mpr hx
    rw [hvx, zero_div, val_mk]
    simp only [Int.cast_zero, zero_mul, sub_zero, abs_zero]
    positivity
  · have hapos : 0 < x.m.natAbs := Int.natAbs_pos.mpr hx
    have hbpos : 0 < y.m.natAbs := Int.natAbs_pos.mpr hy
    have haq : (0 : ℚ) < (x.m.natAbs : ℚ) := by exact_mod_cast hapos
    have hbq : (0 : ℚ) < (y.m.natAbs : ℚ) := by exact_mod_cast hbpos
    obtain ⟨ha1, ha2⟩ := digLen_spec x.m.natAbs hapos
    obtain ⟨hb1, hb2⟩ := digLen_spec y.m.natAbs hbpos
    have haL : 1 ≤ digLen x.m.natAbs := digLen_pos _ hapos
    have hbL : 1 ≤ digLen y.m.natAbs := digLen_pos _ hbpos
    set da : ℤ := (digLen x.m.natAbs : ℤ) with hda
    set db : ℤ := (digLen y.m.natAbs : ℤ) with hdb
    -- digit bounds, cast to ℚ
    have ha1q : (10 : ℚ) ^ (da - 1) ≤ (x.m.natAbs : ℚ) := by
      have hc : ((10 ^ (digLen x.m.natAbs - 1) : ℕ) : ℚ) ≤ (x.m.natAbs : ℚ) := by
        exact_mod_cast ha1
      rw [← tenq_natCast] at hc
      rw [show da - 1 = ((digLen x.m.natAbs - 1 : ℕ) : ℤ) from by omega]
      exact hc
    have ha2q : (x.m.natAbs : ℚ) < (10 : ℚ) ^ da := by
      have hc : (x.m.natAbs : ℚ) < ((10 ^ digLen x.m.natAbs : ℕ) : ℚ) := by
        exact_mod_cast ha2
      rw [← tenq_natCast] at hc
      exact hc
    have hb1q : (10 : ℚ) ^ (db - 1) ≤ (y.m.natAbs : ℚ) := by
      have hc : ((10 ^ (digLen y.m.natAbs - 1) : ℕ) : ℚ) ≤ (y.m.natAbs : ℚ) := by
        exact_mod_cast hb1
      rw [← tenq_natCast] at hc
      rw [show db - 1 = ((digLen y.m.natAbs - 1 : ℕ) : ℤ) from by omega]
      exact hc
    have hb2q : (y.m.natAbs : ℚ) < (10 : ℚ) ^ db := by
      have hc : (y.m.natAbs : ℚ) < ((10 ^ digLen y.m.natAbs : ℕ) : ℚ) := by
        exact_mod_cast hb2
      rw [← tenq_natCast] at hc
      exact hc
    set aexp : ℤ :=
      if tenPowLeInt (da - db) x.m.natAbs y.m.natAbs then (x.e - y.e) + da - db
      else (x.e - y.e) + da - db - 1 with haexp
    -- the bracket 10^aexp ≤ |ratio| < 10^(aexp+1)
    have hbr : (10 : ℚ) ^ aexp ≤ |val x / val y| := by
      rw [abs_ratio_eq, haexp]
      by_cases htest : tenPowLeInt (da - db) x.m.natAbs y.m.natAbs
      · rw [if_pos htest]
        have hle := (tenPowLeInt_spec (da - db) _ _ hbpos).mp htest
        have hfrac : (10 : ℚ) ^ (da - db) ≤ (x.m.natAbs : ℚ) / (y.m.natAbs : ℚ) := by
          rw [le_div_iff₀ hbq, mul_comm]
          exact hle
        calc (10 : ℚ) ^ (x.e - y.e + da - db)
            = (10 : ℚ) ^ (da - db) * (10 : ℚ) ^ (x.e - y.e) := by
              rw [← tenq_add]
              congr 1
              ring
          _ ≤ ((x.m.natAbs : ℚ) / (y.m.natAbs : ℚ)) * (10 : ℚ) ^ (x.e - y.e) :=
              mul_le_mul_of_nonneg_right hfrac (le_of_lt (tenq_pos _))
      · rw [if_neg htest]
        have hfrac : (10 : ℚ) ^ (da - db - 1) ≤ (x.m.natAbs : ℚ) / (y.m.natAbs : ℚ) := by
          rw [le_div_iff₀ hbq]
          calc (10 : ℚ) ^ (da - db - 1) * (y.m.natAbs : ℚ)
              ≤ (10 : ℚ) ^ (da - db - 1) * (10 : ℚ) ^ db :=
                mul_le_mul_of_nonneg_left (le_of_lt hb2q) (le_of_lt (tenq_pos _))
            _ = (10 : ℚ) ^ (da - 1) := by
                rw [← tenq_add]
                congr 1
                ring
            _ ≤ (x.m.natAbs : ℚ) := ha1q
        calc (10 : ℚ) ^ (x.e - y.e + da - db - 1)
            = (10 : ℚ) ^ (da - db - 1) * (10 : ℚ) ^ (x.e - y.e) := by
              rw [← tenq_add]
              congr 1
              ring
          _ ≤ ((x.m.natAbs : ℚ) / (y.m.natAbs : ℚ)) * (10 : ℚ) ^ (x.e - y.e) :=
              mul_le_mul_of_nonneg_right hfrac (le_of_lt (tenq_pos _))
    have hkA : aexp - 49 ≤ A - 50 := by
      have : aexp < A := by
        by_contra hc
        push_neg at hc
        exact absurd (lt_of_le_of_lt (le_trans (tenq_mono hc) hbr) hA) (lt_irrefl _)
      omega
    -- value identity for the scaled fraction, in both shift branches
    have hratio_id : (val x / val y) * (10 : ℚ) ^ (-(aexp - 49))
        = ((x.m : ℚ) / (y.m : ℚ)) * (10 : ℚ) ^ (x.e - y.e - (aexp - 49)) := by
      unfold val
      rw [← div_mul_div_comm, ← zpow_sub₀ (by norm_num : (10 : ℚ) ≠ 0), mul_assoc, ← tenq_add,
        show x.e - y.e + -(aexp - 49) = x.e - y.e - (aexp - 49) from by omega]
    rw [div50, if_neg hx]
    simp only [← hda, ← hdb, ← haexp]
    by_cases hs : 0 ≤ x.e - y.e - (aexp - 49)
    · rw [if_pos hs, val_mk]
      apply rnd_scaled_err _ _ _ A (val x / val y) (by exact_mod_cast hy) _ hkA
      rw [hratio_id]
      push_cast
      rw [tenq_pow_toNat _ hs, mul_div_right_comm]
    · rw [if_neg hs, val_mk]
      apply rnd_scaled_err _ _ _ A (val x / val y)
        (mul_ne_zero hy (by positivity : (0 : ℤ) < 10 ^ (-(x.e - y.e - (aexp - 49))).toNat).ne')
        _ hkA
      rw [hratio_id]
      push_cast
      rw [tenq_pow_toNat _ (by omega : (0 : ℤ) ≤ -(x.e - y.e - (aexp - 49)))]
      rw [div_mul_eq_div_div, div_eq_mul_inv ((x.m : ℚ) / (y.m : ℚ)), ← zpow_neg,
        show -(-(x.e - y.e - (aexp - 49))) = x.e - y.e - (aexp - 49) from by omega]

/-! ## Specification of the ROUND_UP quantize -/

lemma natCeilDiv_eq_ceil (a D : ℕ) (hD : 0 < D) :
    (((a + D - 1) / D : ℕ) : ℤ) = ⌈(a : ℚ) / (D : ℚ)⌉ := by
  obtain ⟨D0, rfl⟩ : ∃ D0, D = D0 + 1 := ⟨D - 1, by omega⟩
  have hrw : a + (D0 + 1) - 1 = a + D0 := by omega
  rw [hrw]
  set c : ℕ := (a + D0) / (D0 + 1) with hc
  have h1 : c * (D0 + 1) ≤ a + D0 := Nat.div_mul_le_self _ _
  have h2 : a ≤ c * (D0 + 1) := by
    have hmod := Nat.div_add_mod (a + D0) (D0 + 1)
    have hlt := Nat.mod_lt (a + D0) (show 0 < D0 + 1 by omega)
    set P : ℕ := c * (D0 + 1) with hP
    have hPm : (D0 + 1) * c = P := by rw [hP]; ring
    rw [hPm] at hmod
    omega
  have hDq : (0 : ℚ) < ((D0 + 1 : ℕ) : ℚ) := by positivity
  symm
  rw [Int.ceil_eq_iff]
  constructor
  · rw [lt_div_iff₀ hDq]
    have h1q : ((c * (D0 + 1) : ℕ) : ℚ) ≤ ((a + D0 : ℕ) : ℚ) := by exact_mod_cast h1
    push_cast at h1q ⊢
    linarith
  · rw [div_le_iff₀ hDq]
    have h2q : ((a : ℕ) : ℚ) ≤ ((c * (D0 + 1) : ℕ) : ℚ) := by exact_mod_cast h2
    push_cast at h2q ⊢
    linarith

lemma qntz_coef (N : ℕ) (v : Dec) :
    ((if 0 ≤ v.e + (N : ℤ) then v.m.natAbs * 10 ^ (v.e + (N : ℤ)).toNat
      else (v.m.natAbs + 10 ^ (-(v.e + (N : ℤ))).toNat - 1) / 10 ^ (-(v.e + (N : ℤ))).toNat
        : ℕ) : ℤ)
    = ⌈|val v| * (10 : ℚ) ^ (N : ℤ)⌉ := by
  have habs : |val v| * (10 : ℚ) ^ (N : ℤ) = (v.m.natAbs : ℚ) * (10 : ℚ) ^ (v.e + N) := by
    rw [abs_val, mul_assoc, ← tenq_add]
  by_cases ht : 0 ≤ v.e + (N : ℤ)
  · rw [if_pos ht, habs]
    have hintv : (v.m.natAbs : ℚ) * (10 : ℚ) ^ (v.e + N)
        = ((v.m.natAbs * 10 ^ (v.e + (N : ℤ)).toNat : ℕ) : ℚ) := by
      push_cast
      rw [tenq_pow_toNat _ ht]
    rw [hintv, Int.ceil_natCast]
  · rw [if_neg ht, habs]
    have hlt : v.e + (N : ℤ) < 0 := by omega
    have hval2 : (v.m.natAbs : ℚ) * (10 : ℚ) ^ (v.e + N)
        = (v.m.natAbs : ℚ) / ((10 ^ (-(v.e + (N : ℤ))).toNat : ℕ) : ℚ) := by
      rw [tenq_toNat_neg hlt, div_eq_mul_inv, ← zpow_neg, neg_neg]
    rw [hval2, natCeilDiv_eq_ceil _ _ (by positivity)]

lemma qntzUp_char (N : ℕ) (v : Dec) (c : Dec) (h : qntzUp N v = some c) :
    c.e = -(N : ℤ) ∧
    c.m = (if v.m < 0 then -⌈|val v| * (10 : ℚ) ^ (N : ℤ)⌉
           else ⌈|val v| * (10 : ℚ) ^ (N : ℤ)⌉) ∧
    ⌈|val v| * (10 : ℚ) ^ (N : ℤ)⌉ < 10 ^ 50 := by
  simp only [qntzUp] at h
  rw [qntz_coef] at h
  split at h
  · rw [Option.some_inj] at h
    subst h
    refine ⟨rfl, ?_, by assumption⟩
    by_cases hneg : v.m < 0
    · simp only [if_pos hneg]
    · simp only [if_neg hneg]
  · exact absurd h (by simp)

lemma val_qntzUp (N : ℕ) (v : Dec) (c : Dec) (h : qntzUp N v = some c) :
    val c = (c.m : ℚ) * (10 : ℚ) ^ (-(N : ℤ)) := by
  have := (qntzUp_char N v c h).1
  rw [val, this]

lemma qntzUp_ge (N : ℕ) (v : Dec) (c : Dec) (h : qntzUp N v = some c) (hv : 0 ≤ val v) :
    val v ≤ val c := by
  obtain ⟨he, hm, _⟩ := qntzUp_char N v c h
  have hvm : ¬v.m < 0 := by
    rw [← val_neg_iff]
    exact not_lt.mpr hv
  rw [if_neg hvm] at hm
  rw [val_qntzUp N v c h, hm]
  have hX : val v * (10 : ℚ) ^ (N : ℤ) ≤ (⌈|val v| * (10 : ℚ) ^ (N : ℤ)⌉ : ℚ) := by
    rw [abs_of_nonneg hv] at *
    exact le_trans le_rfl (Int.le_ceil _)
  calc val v = val v * (10 : ℚ) ^ (N : ℤ) * (10 : ℚ) ^ (-(N : ℤ)) := by
        rw [mul_assoc, mul_comm ((10 : ℚ) ^ (N : ℤ)), tenq_mul_cancel, mul_one]
    _ ≤ (⌈|val v| * (10 : ℚ) ^ (N : ℤ)⌉ : ℚ) * (10 : ℚ) ^ (-(N : ℤ)) :=
        mul_le_mul_of_nonneg_right hX (le_of_lt (tenq_pos _))

lemma qntzUp_le_neg (N : ℕ) (v : Dec) (c : Dec) (h : qntzUp N v = some c) (hv : val v < 0) :
    val c ≤ val v := by
  obtain ⟨he, hm, _⟩ := qntzUp_char N v c h
  have hvm : v.m < 0 := (val_neg_iff v).mp hv
  rw [if_pos hvm] at hm
  rw [val_qntzUp N v c h, hm]
  have hX : -val v * (10 : ℚ) ^ (N : ℤ) ≤ (⌈|val v| * (10 : ℚ) ^ (N : ℤ)⌉ : ℚ) := by
    rw [abs_of_neg hv] at *
    exact Int.le_ceil _
  have : (((-⌈|val v| * (10 : ℚ) ^ (N : ℤ)⌉ : ℤ)) : ℚ)
      ≤ val v * (10 : ℚ) ^ (N : ℤ) := by
    push_cast
    linarith
  calc ((-⌈|val v| * (10 : ℚ) ^ (N : ℤ)⌉ : ℤ) : ℚ) * (10 : ℚ) ^ (-(N : ℤ))
      ≤ val v * (10 : ℚ) ^ (N : ℤ) * (10 : ℚ) ^ (-(N : ℤ)) :=
        mul_le_mul_of_nonneg_right this (le_of_lt (tenq_pos _))
    _ = val v := by
        rw [mul_assoc, mul_comm ((10 : ℚ) ^ (N : ℤ)), tenq_mul_cancel, mul_one]

lemma qntzUp_lower (N : ℕ) (v : Dec) (c : Dec) (h : qntzUp N v = some c) :
    val v - (10 : ℚ) ^ (-(N : ℤ)) < val c := by
  by_cases hv : val v < 0
  · obtain ⟨he, hm, _⟩ := qntzUp_char N v c h
    have hvm : v.m < 0 := (val_neg_iff v).mp hv
    rw [if_pos hvm] at hm
    rw [val_qntzUp N v c h, hm]
    have hceil : (⌈|val v| * (10 : ℚ) ^ (N : ℤ)⌉ : ℚ) < -val v * (10 : ℚ) ^ (N : ℤ) + 1 := by
      rw [abs_of_neg hv] at *
      exact Int.ceil_lt_add_one _
    have hstep : (((-⌈|val v| * (10 : ℚ) ^ (N : ℤ)⌉ : ℤ)) : ℚ)
        > val v * (10 : ℚ) ^ (N : ℤ) - 1 := by
      push_cast
      linarith
    have := mul_lt_mul_of_pos_right hstep (tenq_pos (-(N : ℤ)))
    calc val v - (10 : ℚ) ^ (-(N : ℤ))
        = (val v * (10 : ℚ) ^ (N : ℤ) - 1) * (10 : ℚ) ^ (-(N : ℤ)) := by
          rw [sub_mul, mul_assoc, mul_comm ((10 : ℚ) ^ (N : ℤ)), tenq_mul_cancel,
            mul_one, one_mul]
      _ < ((-⌈|val v| * (10 : ℚ) ^ (N : ℤ)⌉ : ℤ) : ℚ) * (10 : ℚ) ^ (-(N : ℤ)) := this
  · push_neg at hv
    have := qntzUp_ge N v c h hv
    have hq := tenq_pos (-(N : ℤ))
    linarith

lemma qntzUp_min (N : ℕ) (v : Dec) (c : Dec) (h : qntzUp N v = some c) (hv : 0 ≤ val v)
    (mm : ℤ) (hm : val v ≤ (mm : ℚ) * (10 : ℚ) ^ (-(N : ℤ))) :
    val c ≤ (mm : ℚ) * (10 : ℚ) ^ (-(N : ℤ)) := by
  obtain ⟨he, hmc, _⟩ := qntzUp_char N v c h
  have hvm : ¬v.m < 0 := by
    rw [← val_neg_iff]
    exact not_lt.mpr hv
  rw [if_neg hvm] at hmc
  rw [val_qntzUp N v c h, hmc]
  have hXm : |val v| * (10 : ℚ) ^ (N : ℤ) ≤ (mm : ℚ) := by
    rw [abs_of_nonneg hv]
    calc val v * (10 : ℚ) ^ (N : ℤ)
        ≤ (mm : ℚ) * (10 : ℚ) ^ (-(N : ℤ)) * (10 : ℚ) ^ (N : ℤ) :=
          mul_le_mul_of_nonneg_right hm (le_of_lt (tenq_pos _))
      _ = (mm : ℚ) := by rw [mul_assoc, tenq_mul_cancel, mul_one]
  have hceil : ⌈|val v| * (10 : ℚ) ^ (N : ℤ)⌉ ≤ mm := Int.ceil_le.mpr (by exact_mod_cast hXm)
  exact mul_le_mul_of_nonneg_right (by exact_mod_cast hceil) (le_of_lt (tenq_pos _))

lemma qntzUp_max_neg (N : ℕ) (v : Dec) (c : Dec) (h : qntzUp N v = some c) (hv : val v < 0)
    (mm : ℤ) (hm : (mm : ℚ) * (10 : ℚ) ^ (-(N : ℤ)) ≤ val v) :
    (mm : ℚ) * (10 : ℚ) ^ (-(N : ℤ)) ≤ val c := by
  obtain ⟨he, hmc, _⟩ := qntzUp_char N v c h
  have hvm : v.m < 0 := (val_neg_iff v).mp hv
  rw [if_pos hvm] at hmc
  rw [val_qntzUp N v c h, hmc]
  have hXm : |val v| * (10 : ℚ) ^ (N : ℤ) ≤ ((-mm : ℤ) : ℚ) := by
    rw [abs_of_neg hv]
    push_cast
    calc -val v * (10 : ℚ) ^ (N : ℤ)
        ≤ -((mm : ℚ) * (10 : ℚ) ^ (-(N : ℤ))) * (10 : ℚ) ^ (N : ℤ) := by
          apply mul_le_mul_of_nonneg_right _ (le_of_lt (tenq_pos _))
          linarith
      _ = -(mm : ℚ) := by
          rw [neg_mul, mul_assoc, tenq_mul_cancel, mul_one]
  have hceil : ⌈|val v| * (10 : ℚ) ^ (N : ℤ)⌉ ≤ -mm := Int.ceil_le.mpr (by exact_mod_cast hXm)
  have : (mm : ℚ) ≤ ((-⌈|val v| * (10 : ℚ) ^ (N : ℤ)⌉ : ℤ) : ℚ) := by
    push_cast
    have : (⌈|val v| * (10 : ℚ) ^ (N : ℤ)⌉ : ℚ) ≤ ((-mm : ℤ) : ℚ) := by exact_mod_cast hceil
    push_cast at this
    linarith
  exact mul_le_mul_of_nonneg_right this (le_of_lt (tenq_pos _))

lemma qntzUp_abs (N : ℕ) (v : Dec) (c : Dec) (h : qntzUp N v = some c) :
    |val c| < (10 : ℚ) ^ (50 - (N : ℤ)) := by
  obtain ⟨he, hm, hlt⟩ := qntzUp_char N v c h
  have hnn : 0 ≤ ⌈|val v| * (10 : ℚ) ^ (N : ℤ)⌉ :=
    Int.ceil_nonneg (mul_nonneg (abs_nonneg _) (le_of_lt (tenq_pos _)))
  have habs : |c.m| = ⌈|val v| * (10 : ℚ) ^ (N : ℤ)⌉ := by
    rw [hm]
    by_cases hneg : v.m < 0
    · rw [if_pos hneg, abs_neg, abs_of_nonneg hnn]
    · rw [if_neg hneg, abs_of_nonneg hnn]
  have hcm : |(c.m : ℚ)| < ((10 ^ 50 : ℤ) : ℚ) := by
    rw [← Int.cast_abs, habs]
    exact_mod_cast hlt
  rw [val_qntzUp N v c h, abs_mul, abs_of_pos (tenq_pos _)]
  calc |(c.m : ℚ)| * (10 : ℚ) ^ (-(N : ℤ))
      < ((10 ^ 50 : ℤ) : ℚ) * (10 : ℚ) ^ (-(N : ℤ)) :=
        mul_lt_mul_of_pos_right hcm (tenq_pos _)
    _ = (10 : ℚ) ^ (50 - (N : ℤ)) := by
        rw [tenq_int_pow, ← tenq_add,
          show ((50 : ℕ) : ℤ) + -(N : ℤ) = 50 - (N : ℤ) from by omega]

lemma qntzUp_exact (N : ℕ) (v : Dec) (mm : ℤ) (hval : val v = (mm : ℚ) * (10 : ℚ) ^ (-(N : ℤ)))
    (hmm : |mm| < 10 ^ 50) : ∃ c : Dec, qntzUp N v = some c ∧ val c = val v := by
  have hXval : |val v| * (10 : ℚ) ^ (N : ℤ) = ((|mm| : ℤ) : ℚ) := by
    rw [hval, abs_mul, abs_of_pos (tenq_pos _), mul_assoc, tenq_mul_cancel, mul_one,
      Int.cast_abs]
  have hceil : ⌈|val v| * (10 : ℚ) ^ (N : ℤ)⌉ = |mm| := by
    rw [hXval, Int.ceil_intCast]
  simp only [qntzUp]
  rw [qntz_coef, hceil, if_pos (by exact_mod_cast hmm)]
  refine ⟨_, rfl, ?_⟩
  rw [val_mk, hval]
  congr 1
  by_cases hneg : v.m < 0
  · rw [if_pos hneg]
    have : mm < 0 := by
      by_contra hc
      push_neg at hc
      have hvv : 0 ≤ val v := by
        rw [hval]
        exact mul_nonneg (by exact_mod_cast hc) (le_of_lt (tenq_pos _))
      exact absurd ((val_neg_iff v).mpr hneg) (not_lt.mpr hvv)
    push_cast [abs_of_neg this]
    ring
  · rw [if_neg hneg]
    have : 0 ≤ mm := by
      by_contra hc
      push_neg at hc
      have hvv : val v < 0 := by
        rw [hval]
        exact mul_neg_of_neg_of_pos (by exact_mod_cast hc) (tenq_pos _)
      exact absurd ((val_neg_iff v).mp hvv) hneg
    rw [abs_of_nonneg this]

/-! ## Truncation toward zero -/

lemma floor_intCast_div (a b : ℤ) (hb : 0 < b) : ⌊(a : ℚ) / (b : ℚ)⌋ = Int.ediv a b := by
  have hbn : b = (b.toNat : ℤ) := by omega
  rw [hbn]
  exact_mod_cast Rat.floor_intCast_div_natCast a b.toNat

lemma truncQ_intCast (n : ℤ) : truncQ ((n : ℚ)) = n := by
  unfold truncQ
  by_cases h : (n : ℚ) < 0
  · rw [if_pos h, Int.ceil_intCast]
  · rw [if_neg h, Int.floor_intCast]

lemma truncD_val (d : Dec) : truncD d = truncQ (val d) := by
  unfold truncD
  by_cases he : 0 ≤ d.e
  · rw [if_pos he]
    have hvd : val d = ((d.m * 10 ^ d.e.toNat : ℤ) : ℚ) := by
      unfold val
      push_cast
      rw [tenq_pow_toNat _ he]
    rw [hvd, truncQ_intCast]
  · rw [if_neg he]
    set D : ℤ := (10 : ℤ) ^ (-d.e).toNat with hD
    have hDpos : 0 < D := by positivity
    have hDq : (0 : ℚ) < (D : ℚ) := by exact_mod_cast hDpos
    have hvd : val d = (d.m : ℚ) / (D : ℚ) := by
      unfold val
      rw [hD]
      push_cast
      rw [tenq_pow_toNat _ (by omega : (0 : ℤ) ≤ -d.e), div_eq_mul_inv, ← zpow_neg, neg_neg]
    rw [hvd]
    unfold truncQ
    by_cases hm : (d.m : ℚ) / (D : ℚ) < 0
    · rw [if_pos hm]
      have hmneg : d.m < 0 := by
        by_contra hc
        push_neg at hc
        have : (0 : ℚ) ≤ (d.m : ℚ) / (D : ℚ) :=
          div_nonneg (by exact_mod_cast hc) (le_of_lt hDq)
        linarith
      have hfl : ⌊-((d.m : ℚ) / D)⌋ = Int.ediv (-d.m) D := by
        rw [← floor_intCast_div (-d.m) D hDpos]
        congr 1
        push_cast
        ring
      have hceil : ⌈(d.m : ℚ) / D⌉ = -Int.ediv (-d.m) D := by
        have := Int.floor_neg (a := (d.m : ℚ) / D)
        omega
      rw [hceil]
      have htd : Int.tdiv d.m D = -Int.tdiv (-d.m) D := by
        have := Int.neg_tdiv d.m D
        omega
      rw [htd, Int.tdiv_eq_ediv (by omega) (le_of_lt hDpos)]
      rfl
    · rw [if_neg hm]
      have hmpos : 0 ≤ d.m := by
        by_contra hc
        push_neg at hc
        have : (d.m : ℚ) / (D : ℚ) < 0 :=
          div_neg_of_neg_of_pos (by exact_mod_cast hc) hDq
        exact hm this
      rw [floor_intCast_div d.m D hDpos, Int.tdiv_eq_ediv hmpos (le_of_lt hDpos)]
      rfl

lemma truncQ_ge (T : ℤ) (x : ℚ) (h : (T : ℚ) ≤ x) : T ≤ truncQ x := by
  unfold truncQ
  by_cases hx : x < 0
  · rw [if_pos hx]
    have h1 := Int.le_ceil x
    have : (T : ℚ) ≤ (⌈x⌉ : ℚ) := le_trans h h1
    exact_mod_cast this
  · rw [if_neg hx]
    exact Int.le_floor.mpr h

lemma truncQ_lt (T : ℤ) (x : ℚ) (h : truncQ x < T) : x < (T : ℚ) := by
  unfold truncQ at h
  by_cases hx : x < 0
  · rw [if_pos hx] at h
    have h1 := Int.le_ceil x
    have : (⌈x⌉ : ℚ) < (T : ℚ) := by exact_mod_cast h
    linarith
  · rw [if_neg hx] at h
    exact Int.floor_lt.mp h

lemma truncQ_pos_le (T : ℤ) (x : ℚ) (hT : 0 < T) (h : T ≤ truncQ x) : (T : ℚ) ≤ x := by
  unfold truncQ at h
  by_cases hx : x < 0
  · rw [if_pos hx] at h
    have : ⌈x⌉ ≤ 0 := Int.ceil_le.mpr (by exact_mod_cast le_of_lt hx)
    omega
  · rw [if_neg hx] at h
    exact Int.le_floor.mp h

/-! ## Structure of the solver -/

lemma truncD_decInt (n : ℤ) : truncD (decInt n) = n := by
  simp [truncD, decInt]

lemma calcBody_eq_none (B T : ℤ) (N : ℕ) (hc : candidate0 B T N = none) :
    calcBody B T N = none := by
  unfold calcBody
  rw [hc]
  rfl

lemma calcBody_eq_nobump (B T : ℤ) (N : ℕ) (c0 : Dec) (hc : candidate0 B T N = some c0)
    (hlt : ¬ truncD (trialOf B c0) < T) :
    calcBody B T N = some (c0, truncD (trialOf B c0), decide (truncD (trialOf B c0) = T)) := by
  unfold calcBody
  rw [hc, Option.some_bind, truncD_decInt, if_neg hlt]

lemma calcBody_eq_bump (B T : ℤ) (N : ℕ) (c0 c1 : Dec) (hc : candidate0 B T N = some c0)
    (hlt : truncD (trialOf B c0) < T) (hq : qntzUp N (add50 c0 (quantum N)) = some c1) :
    calcBody B T N = some (c1, truncD (trialOf B c1), decide (truncD (trialOf B c1) = T)) := by
  unfold calcBody
  rw [hc, Option.some_bind, truncD_decInt, if_pos hlt, hq, Option.map_some']

lemma calcBody_eq_bump_none (B T : ℤ) (N : ℕ) (c0 : Dec) (hc : candidate0 B T N = some c0)
    (hlt : truncD (trialOf B c0) < T) (hq : qntzUp N (add50 c0 (quantum N)) = none) :
    calcBody B T N = none := by
  unfold calcBody
  rw [hc, Option.some_bind, truncD_decInt, if_pos hlt, hq, Option.map_none']

lemma calcBody_cases (B T : ℤ) (N : ℕ) (p : Dec) (pr : ℤ) (ok : Bool)
    (h : calcBody B T N = some (p, pr, ok)) :
    ∃ c0, candidate0 B T N = some c0 ∧
      ((¬ truncD (trialOf B c0) < T ∧ p = c0 ∧ pr = truncD (trialOf B c0)) ∨
       (truncD (trialOf B c0) < T ∧ qntzUp N (add50 c0 (quantum N)) = some p ∧
         pr = truncD (trialOf B p))) ∧
      ok = decide (pr = T) := by
  cases hc : candidate0 B T N with
  | none =>
    rw [calcBody_eq_none B T N hc] at h
    exact absurd h (by simp)
  | some c0 =>
    refine ⟨c0, rfl, ?_⟩
    by_cases hlt : truncD (trialOf B c0) < T
    · cases hq : qntzUp N (add50 c0 (quantum N)) with
      | none =>
        rw [calcBody_eq_bump_none B T N c0 hc hlt hq] at h
        exact absurd h (by simp)
      | some c1 =>
        rw [calcBody_eq_bump B T N c0 c1 hc hlt hq] at h
        simp only [Option.some.injEq, Prod.mk.injEq] at h
        obtain ⟨h1, h2, h3⟩ := h
        refine ⟨Or.inr ⟨hlt, ?_, ?_⟩, ?_⟩
        · rw [← h1]
        · rw [← h2, ← h1]
        · rw [← h3, ← h2]
    · rw [calcBody_eq_nobump B T N c0 hc hlt] at h
      simp only [Option.some.injEq, Prod.mk.injEq] at h
      obtain ⟨h1, h2, h3⟩ := h
      refine ⟨Or.inl ⟨hlt, ?_, ?_⟩, ?_⟩
      · rw [← h1]
      · rw [← h2]
      · rw [← h3, ← h2]

lemma solve_none_left (T : Option ℤ) (N : ℕ) :
    calculate_safe_adjustment none T N = (none, none, false) := by
  cases T <;> rfl

lemma solve_none_right (B : Option ℤ) (N : ℕ) :
    calculate_safe_adjustment B none N = (none, none, false) := by
  cases B <;> rfl

lemma solve_zero (t : ℤ) (N : ℕ) :
    calculate_safe_adjustment (some 0) (some t) N = (none, none, false) := by
  simp [calculate_safe_adjustment]

lemma solve_body_none (b t : ℤ) (N : ℕ) (hb : b ≠ 0) (h : calcBody b t N = none) :
    calculate_safe_adjustment (some b) (some t) N = (none, none, false) := by
  simp only [calculate_safe_adjustment]
  rw [if_neg hb, h]

lemma solve_body_some (b t : ℤ) (N : ℕ) (hb : b ≠ 0) (p : Dec) (pr : ℤ) (ok : Bool)
    (h : calcBody b t N = some (p, pr, ok)) :
    calculate_safe_adjustment (some b) (some t) N = (some p, some pr, ok) := by
  simp only [calculate_safe_adjustment]
  rw [if_neg hb, h]

lemma solve_some_inv (b t : ℤ) (N : ℕ) (p : Dec) (pr : Option ℤ) (ok : Bool)
    (h : calculate_safe_adjustment (some b) (some t) N = (some p, pr, ok)) :
    b ≠ 0 ∧ ∃ prv, pr = some prv ∧ calcBody b t N = some (p, prv, ok) := by
  simp only [calculate_safe_adjustment] at h
  by_cases hb : b = 0
  · rw [if_pos hb] at h
    exact absurd (congrArg Prod.fst h) (by simp)
  · rw [if_neg hb] at h
    refine ⟨hb, ?_⟩
    cases hc : calcBody b t N with
    | none =>
      rw [hc] at h
      exact absurd (congrArg Prod.fst h) (by simp)
    | some z =>
      obtain ⟨p0, pr0, ok0⟩ := z
      rw [hc] at h
      have hp : some p0 = some p := congrArg Prod.fst h
      have hpr : some pr0 = pr := congrArg (fun w => w.2.1) h
      have hok : ok0 = ok := congrArg (fun w => w.2.2) h
      rw [Option.some_inj] at hp
      refine ⟨pr0, hpr.symm, ?_⟩
      rw [hp, hok]

/-! ## Exact behaviour on moderately sized inputs

For `0 < B ≤ 10^15`, `0 < T ≤ 10^15` and `N ≤ 15`, every operation of the
solver except the division is exactly representable within the 50-digit
context, and the division error is far below the epsilon nudge.  These
lemmas quantify that. -/

lemma qntzUp_abs_lt (N : ℕ) (v : Dec) (c : Dec) (h : qntzUp N v = some c) :
    |val c| < |val v| + (10 : ℚ) ^ (-(N : ℤ)) := by
  obtain ⟨he, hm, _⟩ := qntzUp_char N v c h
  have hnn : 0 ≤ ⌈|val v| * (10 : ℚ) ^ (N : ℤ)⌉ :=
    Int.ceil_nonneg (mul_nonneg (abs_nonneg _) (le_of_lt (tenq_pos _)))
  have habs : |c.m| = ⌈|val v| * (10 : ℚ) ^ (N : ℤ)⌉ := by
    rw [hm]
    by_cases hneg : v.m < 0
    · rw [if_pos hneg, abs_neg, abs_of_nonneg hnn]
    · rw [if_neg hneg, abs_of_nonneg hnn]
  have hceil : (⌈|val v| * (10 : ℚ) ^ (N : ℤ)⌉ : ℚ) < |val v| * (10 : ℚ) ^ (N : ℤ) + 1 :=
    Int.ceil_lt_add_one _
  have hvc : |val c| = ((|c.m| : ℤ) : ℚ) * (10 : ℚ) ^ (-(N : ℤ)) := by
    rw [val_qntzUp N v c h, abs_mul, abs_of_pos (tenq_pos _), Int.cast_abs]
  rw [hvc, habs]
  calc (⌈|val v| * (10 : ℚ) ^ (N : ℤ)⌉ : ℚ) * (10 : ℚ) ^ (-(N : ℤ))
      < (|val v| * (10 : ℚ) ^ (N : ℤ) + 1) * (10 : ℚ) ^ (-(N : ℤ)) :=
        mul_lt_mul_of_pos_right hceil (tenq_pos _)
    _ = |val v| + (10 : ℚ) ^ (-(N : ℤ)) := by
        rw [add_mul, one_mul, mul_assoc, tenq_mul_cancel_right, mul_one]

lemma tenq_lit_le (m : ℕ) (e : ℤ) (h : (m : ℤ) ≤ e) :
    ((10 ^ m : ℤ) : ℚ) ≤ (10 : ℚ) ^ e := by
  rw [tenq_int_pow]
  exact tenq_mono h

lemma tenq_lit_lt (m : ℕ) (e : ℤ) (h : (m : ℤ) < e) :
    ((10 ^ m : ℤ) : ℚ) < (10 : ℚ) ^ e := by
  rw [tenq_int_pow]
  exact tenq_lt h

lemma tenq_small_sum (a b c : ℤ) (ha : a ≤ c - 1) (hb : b ≤ c - 1) :
    (10 : ℚ) ^ a + (10 : ℚ) ^ b ≤ (10 : ℚ) ^ c := by
  have h1 : (10 : ℚ) ^ a ≤ (10 : ℚ) ^ (c - 1) := tenq_mono ha
  have h2 : (10 : ℚ) ^ b ≤ (10 : ℚ) ^ (c - 1) := tenq_mono hb
  have h3 : (10 : ℚ) ^ c = (10 : ℚ) ^ (c - 1) * (10 : ℚ) ^ (1 : ℤ) := by
    rw [← tenq_add]
    congr 1
    ring
  have h4 : (10 : ℚ) ^ (1 : ℤ) = 10 := zpow_one 10
  rw [h3, h4]
  have h5 := tenq_pos (c - 1)
  linarith

/-- The exact rational lower bound `T/B - 1` of the spec. -/
def exactLower (B T : ℤ) : ℚ := (T : ℚ) / (B : ℚ) - 1

lemma reg_ratio_bound (B T : ℤ) (hB : 0 < B) (hT : 0 < T) (hT2 : T ≤ 10 ^ 15) :
    0 < (T : ℚ) / (B : ℚ) ∧ (T : ℚ) / (B : ℚ) < (10 : ℚ) ^ (16 : ℤ) := by
  have hBq : (0 : ℚ) < (B : ℚ) := by exact_mod_cast hB
  have hTq : (0 : ℚ) < (T : ℚ) := by exact_mod_cast hT
  constructor
  · positivity
  · have h1 : (T : ℚ) / B ≤ (T : ℚ) := by
      rw [div_le_iff₀ hBq]
      have hB1 : (1 : ℚ) ≤ (B : ℚ) := by exact_mod_cast hB
      nlinarith
    have h2 : (T : ℚ) ≤ ((10 ^ 15 : ℤ) : ℚ) := by exact_mod_cast hT2
    calc (T : ℚ) / B ≤ (T : ℚ) := h1
      _ ≤ ((10 ^ 15 : ℤ) : ℚ) := h2
      _ < (10 : ℚ) ^ (16 : ℤ) := tenq_lit_lt 15 16 (by norm_num)

lemma reg_div_err (B T : ℤ) (hB : 0 < B) (hT : 0 < T) (hT2 : T ≤ 10 ^ 15) :
    |val (div50 (decInt T) (decInt B)) - (T : ℚ) / (B : ℚ)| ≤ (10 : ℚ) ^ (-34 : ℤ) := by
  obtain ⟨hr1, hr2⟩ := reg_ratio_bound B T hB hT hT2
  have hratio : val (decInt T) / val (decInt B) = (T : ℚ) / (B : ℚ)  := by
    rw [val_decInt, val_decInt]
  have hym : (decInt B).m ≠ 0 := by
    simp [decInt]
    omega
  have habs : |val (decInt T) / val (decInt B)| < (10 : ℚ) ^ (16 : ℤ) := by
    rw [hratio, abs_of_pos hr1]
    exact hr2
  have h := val_div50_err (decInt T) (decInt B) 16 hym habs
  rw [hratio] at h
  have : (16 : ℤ) - 50 = -34 := by norm_num
  rw [this] at h
  exact h

lemma reg_div_abs (B T : ℤ) (hB : 0 < B) (hT : 0 < T) (hT2 : T ≤ 10 ^ 15) :
    |val (div50 (decInt T) (decInt B))| < (10 : ℚ) ^ (16 : ℤ) + 1 := by
  obtain ⟨hr1, hr2⟩ := reg_ratio_bound B T hB hT hT2
  have h := reg_div_err B T hB hT hT2
  have h34 : (10 : ℚ) ^ (-34 : ℤ) ≤ 1 := by
    calc (10 : ℚ) ^ (-34 : ℤ) ≤ (10 : ℚ) ^ (0 : ℤ) := tenq_mono (by norm_num)
      _ = 1 := zpow_zero 10
  have habs : |(T : ℚ) / (B : ℚ)| < (10 : ℚ) ^ (16 : ℤ) := by
    rw [abs_of_pos hr1]
    exact hr2
  calc |val (div50 (decInt T) (decInt B))|
      ≤ |val (div50 (decInt T) (decInt B)) - (T : ℚ) / (B : ℚ)| + |(T : ℚ) / (B : ℚ)| := by
        calc |val (div50 (decInt T) (decInt B))|
            = |(val (div50 (decInt T) (decInt B)) - (T : ℚ) / (B : ℚ)) + (T : ℚ) / (B : ℚ)| := by
              congr 1
              ring
          _ ≤ _ := abs_add _ _
    _ < (10 : ℚ) ^ (16 : ℤ) + 1 := by
        have := h
        linarith

lemma reg_lower_err (B T : ℤ) (hB : 0 < B) (hT : 0 < T) (hT2 : T ≤ 10 ^ 15) :
    |val (lower_bound B T) - exactLower B T| ≤ (10 : ℚ) ^ (-32 : ℤ) := by
  have hdiv := reg_div_err B T hB hT hT2
  have hdabs := reg_div_abs B T hB hT hT2
  set X := div50 (decInt T) (decInt B) with hX
  have hinner : val (decAdd X (decNeg (decInt 1))) = val X - 1 := by
    rw [val_decAdd, val_decNeg, val_decInt]
    push_cast
    ring
  have hinner_abs : |val (decAdd X (decNeg (decInt 1)))| < (10 : ℚ) ^ (17 : ℤ) := by
    rw [hinner]
    have h16 : (10 : ℚ) ^ (16 : ℤ) + 2 ≤ (10 : ℚ) ^ (17 : ℤ) := by
      have h2 : (2 : ℚ) ≤ (10 : ℚ) ^ (16 : ℤ) := by
        calc (2 : ℚ) ≤ ((10 ^ 16 : ℤ) : ℚ) := by norm_num
          _ ≤ (10 : ℚ) ^ (16 : ℤ) := tenq_lit_le 16 16 (by norm_num)
      have := tenq_small_sum 16 16 17 (by norm_num) (by norm_num)
      linarith
    calc |val X - 1| ≤ |val X| + 1 := by
          rw [sub_eq_add_neg]
          calc |val X + -1| ≤ |val X| + |(-1 : ℚ)| := abs_add _ _
            _ = |val X| + 1 := by norm_num
      _ < ((10 : ℚ) ^ (16 : ℤ) + 1) + 1 := by linarith
      _ ≤ (10 : ℚ) ^ (17 : ℤ) := by linarith
  have hrnd := val_rnd50_err (decAdd X (decNeg (decInt 1))) 17 hinner_abs
  have h33 : (17 : ℤ) - 50 = -33 := by norm_num
  rw [h33] at hrnd
  have hsum := tenq_small_sum (-33) (-34) (-32) (by norm_num) (by norm_num)
  have : |val (lower_bound B T) - exactLower B T|
      ≤ |val (rnd50 (decAdd X (decNeg (decInt 1)))) - val (decAdd X (decNeg (decInt 1)))|
        + |val (decAdd X (decNeg (decInt 1))) - exactLower B T| := by
    have habs := abs_add
      (val (rnd50 (decAdd X (decNeg (decInt 1)))) - val (decAdd X (decNeg (decInt 1))))
      (val (decAdd X (decNeg (decInt 1))) - exactLower B T)
    have hlbv : val (lower_bound B T) = val (rnd50 (decAdd X (decNeg (decInt 1)))) := by
      rw [lower_bound, sub50]
    rw [hlbv]
    calc |val (rnd50 (decAdd X (decNeg (decInt 1)))) - exactLower B T|
        = |(val (rnd50 (decAdd X (decNeg (decInt 1)))) - val (decAdd X (decNeg (decInt 1))))
            + (val (decAdd X (decNeg (decInt 1))) - exactLower B T)| := by
          congr 1
          ring
      _ ≤ _ := habs
  have hsecond : |val (decAdd X (decNeg (decInt 1))) - exactLower B T| ≤ (10 : ℚ) ^ (-34 : ℤ) := by
    rw [hinner]
    have : val X - 1 - exactLower B T = val X - (T : ℚ) / (B : ℚ) := by
      unfold exactLower
      ring
    rw [this]
    exact hdiv
  linarith

lemma reg_lower_abs (B T : ℤ) (hB : 0 < B) (hT : 0 < T) (hT2 : T ≤ 10 ^ 15) :
    |val (lower_bound B T)| < (10 : ℚ) ^ (17 : ℤ) := by
  have herr := reg_lower_err B T hB hT hT2
  obtain ⟨hr1, hr2⟩ := reg_ratio_bound B T hB hT hT2
  have hLabs : |exactLower B T| < (10 : ℚ) ^ (16 : ℤ) + 1 := by
    unfold exactLower
    rw [abs_sub_lt_iff]
    constructor
    · linarith
    · have h1 : (1 : ℚ) ≤ (10 : ℚ) ^ (16 : ℤ) := by
        calc (1 : ℚ) ≤ ((10 ^ 16 : ℤ) : ℚ) := by norm_num
          _ ≤ (10 : ℚ) ^ (16 : ℤ) := tenq_lit_le 16 16 (by norm_num)
      linarith
  have hsmall : (10 : ℚ) ^ (-32 : ℤ) ≤ 1 := by
    calc (10 : ℚ) ^ (-32 : ℤ) ≤ (10 : ℚ) ^ (0 : ℤ) := tenq_mono (by norm_num)
      _ = 1 := zpow_zero 10
  have h16 : (10 : ℚ) ^ (16 : ℤ) + 2 ≤ (10 : ℚ) ^ (17 : ℤ) := by
    have h2 : (2 : ℚ) ≤ (10 : ℚ) ^ (16 : ℤ) := by
      calc (2 : ℚ) ≤ ((10 ^ 16 : ℤ) : ℚ) := by norm_num
        _ ≤ (10 : ℚ) ^ (16 : ℤ) := tenq_lit_le 16 16 (by norm_num)
    have := tenq_small_sum 16 16 17 (by norm_num) (by norm_num)
    linarith
  calc |val (lower_bound B T)|
      = |(val (lower_bound B T) - exactLower B T) + exactLower B T| := by
        congr 1
        ring
    _ ≤ |val (lower_bound B T) - exactLower B T| + |exactLower B T| := abs_add _ _
    _ < (10 : ℚ) ^ (17 : ℤ) := by linarith

lemma val_epsD (N : ℕ) : val (epsD N) = (10 : ℚ) ^ (-((N : ℤ) + 2)) := by
  rw [epsD, val_mk]
  simp

lemma val_quantum (N : ℕ) : val (quantum N) = (10 : ℚ) ^ (-(N : ℤ)) := by
  rw [quantum, val_mk]
  simp

lemma reg_nudged_err (B T : ℤ) (N : ℕ) (hB : 0 < B) (hT : 0 < T) (hT2 : T ≤ 10 ^ 15) :
    |val (nudged B T N) - (val (lower_bound B T) + (10 : ℚ) ^ (-((N : ℤ) + 2)))|
      ≤ (10 : ℚ) ^ (-32 : ℤ) := by
  have hlabs := reg_lower_abs B T hB hT hT2
  have hinner : val (decAdd (lower_bound B T) (epsD N))
      = val (lower_bound B T) + (10 : ℚ) ^ (-((N : ℤ) + 2)) := by
    rw [val_decAdd, val_epsD]
  have hinner_abs : |val (decAdd (lower_bound B T) (epsD N))| < (10 : ℚ) ^ (18 : ℤ) := by
    rw [hinner]
    have heps : (10 : ℚ) ^ (-((N : ℤ) + 2)) ≤ 1 := by
      calc (10 : ℚ) ^ (-((N : ℤ) + 2)) ≤ (10 : ℚ) ^ (0 : ℤ) := tenq_mono (by omega)
        _ = 1 := zpow_zero 10
    have heps0 : (0 : ℚ) < (10 : ℚ) ^ (-((N : ℤ) + 2)) := tenq_pos _
    have h17 : (10 : ℚ) ^ (17 : ℤ) + 1 ≤ (10 : ℚ) ^ (18 : ℤ) := by
      have h2 : (1 : ℚ) ≤ (10 : ℚ) ^ (17 : ℤ) := by
        calc (1 : ℚ) ≤ ((10 ^ 17 : ℤ) : ℚ) := by norm_num
          _ ≤ (10 : ℚ) ^ (17 : ℤ) := tenq_lit_le 17 17 (by norm_num)
      have := tenq_small_sum 17 17 18 (by norm_num) (by norm_num)
      linarith
    calc |val (lower_bound B T) + (10 : ℚ) ^ (-((N : ℤ) + 2))|
        ≤ |val (lower_bound B T)| + |(10 : ℚ) ^ (-((N : ℤ) + 2))| := abs_add _ _
      _ = |val (lower_bound B T)| + (10 : ℚ) ^ (-((N : ℤ) + 2)) := by
          rw [abs_of_pos heps0]
      _ < (10 : ℚ) ^ (17 : ℤ) + 1 := by linarith
      _ ≤ (10 : ℚ) ^ (18 : ℤ) := h17
  have hrnd := val_rnd50_err (decAdd (lower_bound B T) (epsD N)) 18 hinner_abs
  have h32 : (18 : ℤ) - 50 = -32 := by norm_num
  rw [h32] at hrnd
  have hnv : val (nudged B T N) = val (rnd50 (decAdd (lower_bound B T) (epsD N))) := by
    rw [nudged, add50]
  rw [hnv]
  rw [hinner] at hrnd
  exact hrnd

lemma ceil_le_pow (x : ℚ) (A : ℤ) (hx : |x| < (10 : ℚ) ^ A) (N K : ℕ)
    (hK : A + (N : ℤ) ≤ (K : ℤ)) :
    ⌈|x| * (10 : ℚ) ^ (N : ℤ)⌉ ≤ 10 ^ K := by
  apply Int.ceil_le.mpr
  have h1 : |x| * (10 : ℚ) ^ (N : ℤ) < (10 : ℚ) ^ (A + (N : ℤ)) := by
    rw [tenq_add]
    exact mul_lt_mul_of_pos_right hx (tenq_pos _)
  have h2 : (10 : ℚ) ^ (A + (N : ℤ)) ≤ (10 : ℚ) ^ (K : ℤ) := tenq_mono hK
  have h3 : ((10 ^ K : ℤ) : ℚ) = (10 : ℚ) ^ (K : ℤ) := tenq_int_pow K
  rw [h3]
  linarith

lemma qntzUp_isSome (N : ℕ) (v : Dec)
    (hc : ⌈|val v| * (10 : ℚ) ^ (N : ℤ)⌉ < 10 ^ 50) :
    ∃ c : Dec, qntzUp N v = some c := by
  simp only [qntzUp]
  rw [qntz_coef, if_pos hc]
  exact ⟨_, rfl⟩

lemma reg_nudged_abs (B T : ℤ) (N : ℕ) (hB : 0 < B) (hT : 0 < T) (hT2 : T ≤ 10 ^ 15) :
    |val (nudged B T N)| < (10 : ℚ) ^ (18 : ℤ) := by
  have h1 := reg_lower_abs B T hB hT hT2
  have h2 := reg_nudged_err B T N hB hT hT2
  have hE1 : (10 : ℚ) ^ (-((N : ℤ) + 2)) ≤ 1 := by
    calc (10 : ℚ) ^ (-((N : ℤ) + 2)) ≤ (10 : ℚ) ^ (0 : ℤ) := tenq_mono (by omega)
      _ = 1 := zpow_zero 10
  have hEpos : (0 : ℚ) < (10 : ℚ) ^ (-((N : ℤ) + 2)) := tenq_pos _
  have h32 : (10 : ℚ) ^ (-32 : ℤ) ≤ 1 := by
    calc (10 : ℚ) ^ (-32 : ℤ) ≤ (10 : ℚ) ^ (0 : ℤ) := tenq_mono (by norm_num)
      _ = 1 := zpow_zero 10
  have h17 : (10 : ℚ) ^ (17 : ℤ) + 2 ≤ (10 : ℚ) ^ (18 : ℤ) := by
    have h2a : (2 : ℚ) ≤ (10 : ℚ) ^ (17 : ℤ) := by
      calc (2 : ℚ) ≤ ((10 ^ 17 : ℤ) : ℚ) := by norm_num
        _ ≤ (10 : ℚ) ^ (17 : ℤ) := tenq_lit_le 17 17 (by norm_num)
    have := tenq_small_sum 17 17 18 (by norm_num) (by norm_num)
    linarith
  rw [abs_le] at h2
  obtain ⟨h2a, h2b⟩ := h2
  have hlb := abs_lt.mp h1
  rw [abs_lt]
  constructor
  · linarith [hlb.1]
  · linarith [hlb.2]

lemma reg_window (B T : ℤ) (N : ℕ) (hB : 0 < B) (hT : 0 < T) (hT2 : T ≤ 10 ^ 15)
    (hN : N ≤ 15) :
    exactLower B T < val (nudged B T N) ∧
    val (nudged B T N) < exactLower B T + (10 : ℚ) ^ (-(N : ℤ)) := by
  have h1 := reg_lower_err B T hB hT hT2
  have h2 := reg_nudged_err B T N hB hT hT2
  rw [abs_le] at h1 h2
  obtain ⟨h1a, h1b⟩ := h1
  obtain ⟨h2a, h2b⟩ := h2
  have hEpos : (0 : ℚ) < (10 : ℚ) ^ (-((N : ℤ) + 2)) := tenq_pos _
  have htpos : (0 : ℚ) < (10 : ℚ) ^ (-32 : ℤ) := tenq_pos _
  have h31 : (10 : ℚ) ^ (-31 : ℤ) ≤ (10 : ℚ) ^ (-((N : ℤ) + 2)) := tenq_mono (by omega)
  have h3132 : (10 : ℚ) ^ (-31 : ℤ) = (10 : ℚ) ^ (-32 : ℤ) * 10 := by
    rw [show (-31 : ℤ) = -32 + 1 from by norm_num, tenq_add, zpow_one]
  have hq : (10 : ℚ) ^ (-(N : ℤ)) = (10 : ℚ) ^ (-((N : ℤ) + 2)) * 100 := by
    rw [show -(N : ℤ) = -((N : ℤ) + 2) + 2 from by ring, tenq_add]
    congr 1
    rw [show (2 : ℤ) = 1 + 1 from by norm_num, tenq_add, zpow_one]
    norm_num
  constructor
  · linarith
  · rw [hq]
    linarith

lemma reg_c0 (B T : ℤ) (N : ℕ) (hB : 0 < B) (hT : 0 < T) (hT2 : T ≤ 10 ^ 15)
    (hN : N ≤ 15) :
    ∃ c0 : Dec, candidate0 B T N = some c0 ∧ c0.e = -(N : ℤ) ∧
      |val c0| < (10 : ℚ) ^ (18 : ℤ) + 1 ∧ |c0.m| < 10 ^ 34 := by
  have hv := reg_nudged_abs B T N hB hT hT2
  have hceil : ⌈|val (nudged B T N)| * (10 : ℚ) ^ (N : ℤ)⌉ < 10 ^ 50 := by
    have := ceil_le_pow (val (nudged B T N)) 18 hv N 33 (by omega)
    exact lt_of_le_of_lt this (by norm_num)
  obtain ⟨c0, hc0⟩ := qntzUp_isSome N (nudged B T N) hceil
  have habs : |val c0| < (10 : ℚ) ^ (18 : ℤ) + 1 := by
    have h1 := qntzUp_abs_lt N (nudged B T N) c0 hc0
    have hq1 : (10 : ℚ) ^ (-(N : ℤ)) ≤ 1 := by
      calc (10 : ℚ) ^ (-(N : ℤ)) ≤ (10 : ℚ) ^ (0 : ℤ) := tenq_mono (by omega)
        _ = 1 := zpow_zero 10
    linarith
  refine ⟨c0, hc0, (qntzUp_char N _ c0 hc0).1, habs, ?_⟩
  have hcm : |(c0.m : ℚ)| < (10 : ℚ) ^ (34 : ℤ) := by
    have hvc : val c0 = (c0.m : ℚ) * (10 : ℚ) ^ (-(N : ℤ)) := val_qntzUp N _ c0 hc0
    have hme : (c0.m : ℚ) = val c0 * (10 : ℚ) ^ (N : ℤ) := by
      rw [hvc, mul_assoc, tenq_mul_cancel, mul_one]
    rw [hme, abs_mul, abs_of_pos (tenq_pos _)]
    have h15 : (10 : ℚ) ^ (N : ℤ) ≤ (10 : ℚ) ^ (15 : ℤ) := tenq_mono (by omega)
    have hlit : ((10 : ℚ) ^ (18 : ℤ) + 1) * (10 : ℚ) ^ (15 : ℤ) < (10 : ℚ) ^ (34 : ℤ) := by
      have e1 : (10 : ℚ) ^ (18 : ℤ) * (10 : ℚ) ^ (15 : ℤ) = (10 : ℚ) ^ (33 : ℤ) := by
        rw [← tenq_add]
        norm_num
      have e2 : (10 : ℚ) ^ (15 : ℤ) < (10 : ℚ) ^ (33 : ℤ) := tenq_lt (by norm_num)
      have e3 : (10 : ℚ) ^ (33 : ℤ) + (10 : ℚ) ^ (33 : ℤ) ≤ (10 : ℚ) ^ (34 : ℤ) :=
        tenq_small_sum 33 33 34 (by norm_num) (by norm_num)
      nlinarith [e1, e2, e3]
    calc |val c0| * (10 : ℚ) ^ (N : ℤ)
        ≤ |val c0| * (10 : ℚ) ^ (15 : ℤ) :=
          mul_le_mul_of_nonneg_left h15 (abs_nonneg _)
      _ < ((10 : ℚ) ^ (18 : ℤ) + 1) * (10 : ℚ) ^ (15 : ℤ) :=
          mul_lt_mul_of_pos_right habs (tenq_pos _)
      _ < (10 : ℚ) ^ (34 : ℤ) := hlit
  have hcast : ((10 ^ 34 : ℤ) : ℚ) = (10 : ℚ) ^ (34 : ℤ) := by
    rw [tenq_int_pow]
    norm_num
  have hfin : |(c0.m : ℚ)| < ((10 ^ 34 : ℤ) : ℚ) := by
    rw [hcast]
    exact hcm
  exact_mod_cast hfin

lemma reg_trial_exact (B : ℤ) (p : Dec) (N : ℕ) (hB : 0 < B) (hB2 : B ≤ 10 ^ 15)
    (he : p.e = -(N : ℤ)) (hvp : |val p| < (10 : ℚ) ^ (19 : ℤ)) (hN : N ≤ 15) :
    val (trialOf B p) = (B : ℚ) * (1 + val p) := by
  set mm : ℤ := 10 ^ N + p.m with hmm
  have hvalp : val p = (p.m : ℚ) * (10 : ℚ) ^ (-(N : ℤ)) := by
    unfold val
    rw [he]
  have hSval : val (decAdd (decInt 1) p) = 1 + val p := by
    rw [val_decAdd, val_decInt]
    norm_num
  have hSrep : val (decAdd (decInt 1) p) = (mm : ℚ) * (10 : ℚ) ^ (-(N : ℤ)) := by
    rw [hSval, hvalp, hmm]
    push_cast
    rw [add_mul, ← zpow_natCast (10 : ℚ) N, tenq_mul_cancel_right]
  have h0 : (mm : ℚ) * (10 : ℚ) ^ (-(N : ℤ)) = 1 + val p := by
    rw [← hSrep, hSval]
  have hmm_eq : (mm : ℚ) = (1 + val p) * (10 : ℚ) ^ (N : ℤ) := by
    calc (mm : ℚ) = (mm : ℚ) * ((10 : ℚ) ^ (-(N : ℤ)) * (10 : ℚ) ^ (N : ℤ)) := by
          rw [tenq_mul_cancel, mul_one]
      _ = ((mm : ℚ) * (10 : ℚ) ^ (-(N : ℤ))) * (10 : ℚ) ^ (N : ℤ) := by ring
      _ = (1 + val p) * (10 : ℚ) ^ (N : ℤ) := by rw [h0]
  have habs1p : |1 + val p| < (10 : ℚ) ^ (20 : ℤ) := by
    have h1 : |1 + val p| ≤ 1 + |val p| := by
      calc |1 + val p| ≤ |(1 : ℚ)| + |val p| := abs_add _ _
        _ = 1 + |val p| := by norm_num
    have h2 : (1 : ℚ) ≤ (10 : ℚ) ^ (19 : ℤ) := by
      calc (1 : ℚ) = (10 : ℚ) ^ (0 : ℤ) := (zpow_zero 10).symm
        _ ≤ (10 : ℚ) ^ (19 : ℤ) := tenq_mono (by norm_num)
    have h3 : (10 : ℚ) ^ (19 : ℤ) + (10 : ℚ) ^ (19 : ℤ) ≤ (10 : ℚ) ^ (20 : ℤ) :=
      tenq_small_sum 19 19 20 (by norm_num) (by norm_num)
    linarith
  have hmabs : |(mm : ℚ)| < (10 : ℚ) ^ (35 : ℤ) := by
    rw [hmm_eq, abs_mul, abs_of_pos (tenq_pos _)]
    have h15 : (10 : ℚ) ^ (N : ℤ) ≤ (10 : ℚ) ^ (15 : ℤ) := tenq_mono (by omega)
    have he1 : (10 : ℚ) ^ (20 : ℤ) * (10 : ℚ) ^ (15 : ℤ) = (10 : ℚ) ^ (35 : ℤ) := by
      rw [← tenq_add]
      norm_num
    calc |1 + val p| * (10 : ℚ) ^ (N : ℤ)
        ≤ |1 + val p| * (10 : ℚ) ^ (15 : ℤ) :=
          mul_le_mul_of_nonneg_left h15 (abs_nonneg _)
      _ < (10 : ℚ) ^ (20 : ℤ) * (10 : ℚ) ^ (15 : ℤ) :=
          mul_lt_mul_of_pos_right habs1p (tenq_pos _)
      _ = (10 : ℚ) ^ (35 : ℤ) := he1
  have hmZ : |mm| < 10 ^ 35 := by
    have hcast : ((10 ^ 35 : ℤ) : ℚ) = (10 : ℚ) ^ (35 : ℤ) := by
      rw [tenq_int_pow]
      norm_num
    have hq : |(mm : ℚ)| < ((10 ^ 35 : ℤ) : ℚ) := by
      rw [hcast]
      exact hmabs
    exact_mod_cast hq
  have hmZ50 : |mm| < 10 ^ 50 := lt_of_lt_of_le hmZ (by norm_num)
  have hA : val (add50 (decInt 1) p) = (mm : ℚ) * (10 : ℚ) ^ (-(N : ℤ)) := by
    rw [add50, val_rnd50_exact _ mm (-(N : ℤ)) hSrep hmZ50, hSrep]
  have hMrep : val (decMul (decInt B) (add50 (decInt 1) p))
      = ((B * mm : ℤ) : ℚ) * (10 : ℚ) ^ (-(N : ℤ)) := by
    rw [val_decMul, val_decInt, hA]
    push_cast
    ring
  have hBmZ : |B * mm| < 10 ^ 50 := by
    rw [abs_mul]
    have hBa : |B| ≤ 10 ^ 15 := by
      rw [abs_of_pos hB]
      exact hB2
    calc |B| * |mm| ≤ 10 ^ 15 * |mm| :=
          mul_le_mul_of_nonneg_right hBa (abs_nonneg _)
      _ < 10 ^ 15 * 10 ^ 35 := mul_lt_mul_of_pos_left hmZ (by norm_num)
      _ = 10 ^ 50 := by norm_num
  have hfin : val (trialOf B p) = val (decMul (decInt B) (add50 (decInt 1) p)) := by
    unfold trialOf mul50
    exact val_rnd50_exact _ (B * mm) (-(N : ℤ)) hMrep hBmZ
  calc val (trialOf B p) = ((B * mm : ℤ) : ℚ) * (10 : ℚ) ^ (-(N : ℤ)) := by
        rw [hfin, hMrep]
    _ = (B : ℚ) * ((mm : ℚ) * (10 : ℚ) ^ (-(N : ℤ))) := by
        push_cast
        ring
    _ = (B : ℚ) * (1 + val p) := by rw [h0]

lemma reg_trunc_trial (B : ℤ) (p : Dec) (N : ℕ) (hB : 0 < B) (hB2 : B ≤ 10 ^ 15)
    (he : p.e = -(N : ℤ)) (hvp : |val p| < (10 : ℚ) ^ (19 : ℤ)) (hN : N ≤ 15) :
    truncD (trialOf B p) = truncQ ((B : ℚ) * (1 + val p)) := by
  rw [truncD_val, reg_trial_exact B p N hB hB2 he hvp hN]

lemma reg_bump (c0 : Dec) (N : ℕ) (he : c0.e = -(N : ℤ)) (hm : |c0.m| < 10 ^ 34) :
    ∃ c1 : Dec, qntzUp N (add50 c0 (quantum N)) = some c1 ∧
      val c1 = val c0 + (10 : ℚ) ^ (-(N : ℤ)) := by
  have hadd : val (decAdd c0 (quantum N)) = ((c0.m + 1 : ℤ) : ℚ) * (10 : ℚ) ^ (-(N : ℤ)) := by
    rw [val_decAdd, val_quantum]
    unfold val
    rw [he]
    push_cast
    ring
  have habs : |c0.m + 1| < 10 ^ 50 := by
    have h1 : |c0.m + 1| ≤ |c0.m| + 1 := by
      calc |c0.m + 1| ≤ |c0.m| + |(1 : ℤ)| := abs_add _ _
        _ = |c0.m| + 1 := by norm_num
    have hle : (10 : ℤ) ^ 34 + 1 ≤ 10 ^ 50 := by norm_num
    linarith
  have h1 : val (add50 c0 (quantum N)) = ((c0.m + 1 : ℤ) : ℚ) * (10 : ℚ) ^ (-(N : ℤ)) := by
    rw [add50, val_rnd50_exact _ (c0.m + 1) (-(N : ℤ)) hadd habs, hadd]
  obtain ⟨c1, hc1, hval⟩ := qntzUp_exact N (add50 c0 (quantum N)) (c0.m + 1) h1 habs
  refine ⟨c1, hc1, ?_⟩
  rw [hval, h1]
  unfold val
  rw [he]
  push_cast
  ring

/-- Master description of the solver in the bounded regime
`0 < B ≤ 10^15`, `0 < T ≤ 10^15`, `N ≤ 15`: the solver succeeds, the
reported proof quantity really is the truncation of the exact product
`B * (1 + p)`, the returned factor is at least the exact lower bound
`T/B - 1`, and it exceeds any quantum-aligned solution by at most one
quantum. -/
lemma solve_regime (B T : ℤ) (N : ℕ) (hB : 0 < B) (hB2 : B ≤ 10 ^ 15)
    (hT : 0 < T) (hT2 : T ≤ 10 ^ 15) (hN : N ≤ 15) :
    ∃ p : Dec, ∃ pr : ℤ,
      calculate_safe_adjustment (some B) (some T) N = (some p, some pr, decide (pr = T)) ∧
      pr = truncQ ((B : ℚ) * (1 + val p)) ∧
      exactLower B T ≤ val p ∧
      (∀ m : ℤ, truncQ ((B : ℚ) * (1 + (m : ℚ) * (10 : ℚ) ^ (-(N : ℤ)))) = T →
        val p ≤ (m : ℚ) * (10 : ℚ) ^ (-(N : ℤ)) + (10 : ℚ) ^ (-(N : ℤ))) := by
  have hbne : B ≠ 0 := by omega
  have hBq : (0 : ℚ) < (B : ℚ) := by exact_mod_cast hB
  obtain ⟨hw1, hw2⟩ := reg_window B T N hB hT hT2 hN
  obtain ⟨c0, hc0, he0, hv0, hm0⟩ := reg_c0 B T N hB hT hT2 hN
  have hqpos : (0 : ℚ) < (10 : ℚ) ^ (-(N : ℤ)) := tenq_pos _
  have hq1 : (10 : ℚ) ^ (-(N : ℤ)) ≤ 1 := by
    calc (10 : ℚ) ^ (-(N : ℤ)) ≤ (10 : ℚ) ^ (0 : ℤ) := tenq_mono (by omega)
      _ = 1 := zpow_zero 10
  have h1819 : (10 : ℚ) ^ (18 : ℤ) + 2 ≤ (10 : ℚ) ^ (19 : ℤ) := by
    have ha : (2 : ℚ) ≤ (10 : ℚ) ^ (18 : ℤ) := by
      calc (2 : ℚ) ≤ ((10 ^ 18 : ℤ) : ℚ) := by norm_num
        _ ≤ (10 : ℚ) ^ (18 : ℤ) := tenq_lit_le 18 18 (by norm_num)
    have := tenq_small_sum 18 18 19 (by norm_num) (by norm_num)
    linarith
  have hvc0_19 : |val c0| < (10 : ℚ) ^ (19 : ℤ) := by linarith
  have htr0 : truncD (trialOf B c0) = truncQ ((B : ℚ) * (1 + val c0)) :=
    reg_trunc_trial B c0 N hB hB2 he0 hvc0_19 hN
  have hsol : ∀ m : ℤ, truncQ ((B : ℚ) * (1 + (m : ℚ) * (10 : ℚ) ^ (-(N : ℤ)))) = T →
      exactLower B T ≤ (m : ℚ) * (10 : ℚ) ^ (-(N : ℤ)) := by
    intro m hm
    have h1 : (T : ℚ) ≤ (B : ℚ) * (1 + (m : ℚ) * (10 : ℚ) ^ (-(N : ℤ))) :=
      truncQ_pos_le T _ hT (le_of_eq hm.symm)
    have h2 : (T : ℚ) / (B : ℚ) ≤ 1 + (m : ℚ) * (10 : ℚ) ^ (-(N : ℤ)) := by
      rw [div_le_iff₀ hBq, mul_comm (1 + (m : ℚ) * (10 : ℚ) ^ (-(N : ℤ))) ((B : ℚ))]
      exact h1
    unfold exactLower
    linarith
  by_cases hlt : truncD (trialOf B c0) < T
  · -- the validation trial undershoots: the one-quantum bump runs
    obtain ⟨c1, hc1, hval1⟩ := reg_bump c0 N he0 hm0
    have hbody := calcBody_eq_bump B T N c0 c1 hc0 hlt hc1
    have hres := solve_body_some B T N hbne c1 (truncD (trialOf B c1)) _ hbody
    have he1 : c1.e = -(N : ℤ) := (qntzUp_char N _ c1 hc1).1
    have hvc1_19 : |val c1| < (10 : ℚ) ^ (19 : ℤ) := by
      rw [hval1]
      calc |val c0 + (10 : ℚ) ^ (-(N : ℤ))|
          ≤ |val c0| + |(10 : ℚ) ^ (-(N : ℤ))| := abs_add _ _
        _ = |val c0| + (10 : ℚ) ^ (-(N : ℤ)) := by rw [abs_of_pos hqpos]
        _ < (10 : ℚ) ^ (19 : ℤ) := by linarith
    have htr1 : truncD (trialOf B c1) = truncQ ((B : ℚ) * (1 + val c1)) :=
      reg_trunc_trial B c1 N hB hB2 he1 hvc1_19 hN
    refine ⟨c1, truncD (trialOf B c1), hres, htr1, ?_, ?_⟩
    · have hl := qntzUp_lower N _ c0 hc0
      rw [hval1]
      linarith
    · intro m hm
      have hLm := hsol m hm
      have hlt' : (B : ℚ) * (1 + val c0) < (T : ℚ) := by
        have h4 : truncQ ((B : ℚ) * (1 + val c0)) < T := by
          rw [← htr0]
          exact hlt
        exact truncQ_lt T _ h4
      have hsolB : (T : ℚ) ≤ (B : ℚ) * (1 + (m : ℚ) * (10 : ℚ) ^ (-(N : ℤ))) :=
        truncQ_pos_le T _ hT (le_of_eq hm.symm)
      have hc0m : val c0 < (m : ℚ) * (10 : ℚ) ^ (-(N : ℤ)) := by
        have h3 : (B : ℚ) * (1 + val c0)
            < (B : ℚ) * (1 + (m : ℚ) * (10 : ℚ) ^ (-(N : ℤ))) := lt_of_lt_of_le hlt' hsolB
        have := (mul_lt_mul_left hBq).mp h3
        linarith
      have hvc0q : val c0 = (c0.m : ℚ) * (10 : ℚ) ^ (-(N : ℤ)) := val_qntzUp N _ c0 hc0
      have hintlt : (c0.m : ℚ) < (m : ℚ) := by
        rw [hvc0q] at hc0m
        exact (mul_lt_mul_right hqpos).mp hc0m
      have hint : c0.m < m := by exact_mod_cast hintlt
      have hint1 : (c0.m : ℚ) + 1 ≤ (m : ℚ) := by
        exact_mod_cast (by omega : c0.m + 1 ≤ m)
      have hstep : ((c0.m : ℚ) + 1) * (10 : ℚ) ^ (-(N : ℤ))
          ≤ (m : ℚ) * (10 : ℚ) ^ (-(N : ℤ)) :=
        mul_le_mul_of_nonneg_right hint1 (le_of_lt hqpos)
      rw [hval1, hvc0q]
      linarith
  · -- no bump: the candidate is returned as computed
    have hbody := calcBody_eq_nobump B T N c0 hc0 hlt
    have hres := solve_body_some B T N hbne c0 (truncD (trialOf B c0)) _ hbody
    refine ⟨c0, truncD (trialOf B c0), hres, htr0, ?_, ?_⟩
    · have hTle : T ≤ truncQ ((B : ℚ) * (1 + val c0)) := by
        rw [← htr0]
        omega
      have h1 := truncQ_pos_le T _ hT hTle
      have h2 : (T : ℚ) / (B : ℚ) ≤ 1 + val c0 := by
        rw [div_le_iff₀ hBq, mul_comm (1 + val c0) ((B : ℚ))]
        exact h1
      unfold exactLower
      linarith
    · intro m hm
      have hLm := hsol m hm
      by_cases hvn : 0 ≤ val (nudged B T N)
      · have hv_le : val (nudged B T N) ≤ ((m + 1 : ℤ) : ℚ) * (10 : ℚ) ^ (-(N : ℤ)) := by
          push_cast
          have hexp : ((m : ℚ) + 1) * (10 : ℚ) ^ (-(N : ℤ))
              = (m : ℚ) * (10 : ℚ) ^ (-(N : ℤ)) + (10 : ℚ) ^ (-(N : ℤ)) := by ring
          rw [hexp]
          linarith
        have hmin := qntzUp_min N _ c0 hc0 hvn (m + 1) hv_le
        push_cast at hmin
        linarith
      · push_neg at hvn
        have hle := qntzUp_le_neg N _ c0 hc0 hvn
        linarith

/-- Inversion form of `solve_regime`: any successful result of the solver in
the bounded regime carries the stated guarantees. -/
lemma solve_regime_inv (B T : ℤ) (N : ℕ) (hB : 0 < B) (hB2 : B ≤ 10 ^ 15)
    (hT : 0 < T) (hT2 : T ≤ 10 ^ 15) (hN : N ≤ 15)
    (p : Dec) (pr : Option ℤ) (ok : Bool)
    (h : calculate_safe_adjustment (some B) (some T) N = (some p, pr, ok)) :
    pr = some (truncQ ((B : ℚ) * (1 + val p))) ∧
    ok = decide (truncQ ((B : ℚ) * (1 + val p)) = T) ∧
    exactLower B T ≤ val p ∧
    (∀ m : ℤ, truncQ ((B : ℚ) * (1 + (m : ℚ) * (10 : ℚ) ^ (-(N : ℤ)))) = T →
      val p ≤ (m : ℚ) * (10 : ℚ) ^ (-(N : ℤ)) + (10 : ℚ) ^ (-(N : ℤ))) := by
  obtain ⟨p0, pr0, heq, hpr0, hL, hmin⟩ := solve_regime B T N hB hB2 hT hT2 hN
  rw [heq] at h
  have hp : p0 = p := by
    have := congrArg Prod.fst h
    simpa using this
  have hpr : some pr0 = pr := congrArg (fun w => w.2.1) h
  have hok : decide (pr0 = T) = ok := congrArg (fun w => w.2.2) h
  refine ⟨?_, ?_, ?_, ?_⟩
  · rw [← hpr, ← hp, ← hpr0]
  · rw [← hok, ← hp, ← hpr0]
  · rw [← hp]
    exact hL
  · rw [← hp]
    exact hmin

/-- C1 (original claim, refuted): at `B = 13`, `T = 2*10^37 + 10`, `N = 13`
the solver reports `valid = true` with proof quantity `T`, yet the exact
product `B * (1 + p)` truncates to `T - 1`: the reported reconciliation is
an artifact of the 50-digit context rounding inside the trial
multiplication. -/
theorem C1_counterexample :
    calculate_safe_adjustment (some 13) (some (2 * 10 ^ 37 + 10)) 13
      = (some ⟨15384615384615384615384615384615384613076923076923, -13⟩,
         some (2 * 10 ^ 37 + 10), true) ∧
    truncQ (((13 : ℤ) : ℚ)
        * (1 + val ⟨15384615384615384615384615384615384613076923076923, -13⟩))
      ≠ 2 * 10 ^ 37 + 10 := by
  constructor
  · decide
  · have hval : ((13 : ℤ) : ℚ)
        * (1 + val ⟨15384615384615384615384615384615384613076923076923, -13⟩)
        = val ⟨13 * (10 ^ 13 + 15384615384615384615384615384615384613076923076923),
               -13⟩ := by
      rw [val_mk, val_mk]
      push_cast
      ring
    rw [hval, ← truncD_val]
    decide

/-- C1 (amended, proved): in the bounded regime `0 < B ≤ 10^15`,
`0 < T ≤ 10^15`, `N ≤ 15`, if the solver returns `valid = true` with factor
`p` and proof quantity `pr`, then the exact product `B * (1 + p)` truncated
toward zero equals `T`, and `pr = T`. -/
theorem C1_round_trip_bounded (B T : ℤ) (N : ℕ)
    (hB : 0 < B) (hB2 : B ≤ 10 ^ 15) (hT : 0 < T) (hT2 : T ≤ 10 ^ 15) (hN : N ≤ 15)
    (p : Dec) (pr : ℤ)
    (h : calculate_safe_adjustment (some B) (some T) N = (some p, some pr, true)) :
    truncQ ((B : ℚ) * (1 + val p)) = T ∧ pr = T := by
  obtain ⟨hpr, hok, _, _⟩ := solve_regime_inv B T N hB hB2 hT hT2 hN p (some pr) true h
  have h1 : truncQ ((B : ℚ) * (1 + val p)) = T := of_decide_eq_true hok.symm
  refine ⟨h1, ?_⟩
  rw [Option.some_inj] at hpr
  rw [hpr, h1]

/-- C1 witness: the amended round-trip theorem applied at
`B = 3`, `T = 10`, `N = 13`. -/
theorem C1_round_trip_bounded_witness :
    truncQ (((3 : ℤ) : ℚ) * (1 + val ⟨23333333333334, -13⟩)) = 10 ∧ (10 : ℤ) = 10 :=
  C1_round_trip_bounded 3 10 13 (by norm_num) (by norm_num) (by norm_num) (by norm_num)
    (by norm_num) ⟨23333333333334, -13⟩ 10 (by decide)

/-- C2 (original claim, refuted): at `B = 1000`, `T = 1000`, `N = 13` the
solver returns `p = 10^-13` with `valid = true`, yet the strictly smaller
quantum multiple `0 * 10^-13` already satisfies the round-trip property:
the returned factor is not the smallest quantum-aligned solution. -/
theorem C2_counterexample :
    calculate_safe_adjustment (some 1000) (some 1000) 13
      = (some ⟨1, -13⟩, some 1000, true) ∧
    truncQ (((1000 : ℤ) : ℚ) * (1 + ((0 : ℤ) : ℚ) * (10 : ℚ) ^ (-13 : ℤ))) = 1000 ∧
    ((0 : ℤ) : ℚ) * (10 : ℚ) ^ (-13 : ℤ) < val ⟨1, -13⟩ := by
  refine ⟨by decide, ?_, ?_⟩
  · have hv : ((1000 : ℤ) : ℚ) * (1 + ((0 : ℤ) : ℚ) * (10 : ℚ) ^ (-13 : ℤ))
        = ((1000 : ℤ) : ℚ) := by
      push_cast
      ring
    rw [hv, truncQ_intCast]
  · have h0 : ((0 : ℤ) : ℚ) * (10 : ℚ) ^ (-13 : ℤ) = 0 := by
      push_cast
      ring
    rw [h0, val_mk]
    have := tenq_pos (-13 : ℤ)
    push_cast
    linarith

/-- C2 (amended, proved): in the bounded regime, the factor returned by the
solver exceeds any quantum-aligned solution by at most one quantum: for
every integer `m` with `truncate(B * (1 + m * 10^-N)) = T`, the returned
`p` satisfies `p ≤ m * 10^-N + 10^-N`. -/
theorem C2_minimality_within_quantum (B T : ℤ) (N : ℕ)
    (hB : 0 < B) (hB2 : B ≤ 10 ^ 15) (hT : 0 < T) (hT2 : T ≤ 10 ^ 15) (hN : N ≤ 15)
    (p : Dec) (pr : Option ℤ) (ok : Bool)
    (h : calculate_safe_adjustment (some B) (some T) N = (some p, pr, ok))
    (m : ℤ) (hm : truncQ ((B : ℚ) * (1 + (m : ℚ) * (10 : ℚ) ^ (-(N : ℤ)))) = T) :
    val p ≤ (m : ℚ) * (10 : ℚ) ^ (-(N : ℤ)) + (10 : ℚ) ^ (-(N : ℤ)) := by
  obtain ⟨_, _, _, hmin⟩ := solve_regime_inv B T N hB hB2 hT hT2 hN p pr ok h
  exact hmin m hm

/-- C2 witness: one-quantum near-minimality applied at `B = 1000`,
`T = 1001`, `N = 13` with the quantum-aligned solution `m = 10^10`
(that is, `m * 10^-13 = 0.001`). -/
theorem C2_minimality_within_quantum_witness :
    val ⟨10000000001, -13⟩
      ≤ ((10000000000 : ℤ) : ℚ) * (10 : ℚ) ^ (-((13 : ℕ) : ℤ))
        + (10 : ℚ) ^ (-((13 : ℕ) : ℤ)) :=
  C2_minimality_within_quantum 1000 1001 13 (by norm_num) (by norm_num) (by norm_num)
    (by norm_num) (by norm_num) ⟨10000000001, -13⟩ (some 1001) true (by decide)
    10000000000
    (by
      have hv : ((1000 : ℤ) : ℚ)
          * (1 + ((10000000000 : ℤ) : ℚ) * (10 : ℚ) ^ (-((13 : ℕ) : ℤ)))
          = ((1001 : ℤ) : ℚ) := by
        push_cast
        norm_num
      rw [hv, truncQ_intCast])

/-- C3 (original claim, refuted): at `B = 3`, `T = -2` (a nonzero base and
an integer target) the solver returns a non-none factor that is strictly
smaller than the theoretical minimum `T/B - 1`: for negative targets the
away-from-zero quantize step rounds the candidate downward. -/
theorem C3_counterexample :
    calculate_safe_adjustment (some 3) (some (-2)) 13
      = (some ⟨-16666666666667, -13⟩, some (-2), true) ∧
    val ⟨-16666666666667, -13⟩ < exactLower 3 (-2) := by
  constructor
  · decide
  · rw [val_mk]
    unfold exactLower
    push_cast
    norm_num

/-- C3 (amended, proved): in the bounded regime `0 < B ≤ 10^15`,
`0 < T ≤ 10^15`, `N ≤ 15`, any factor returned by the solver is at least
the theoretical minimum `T/B - 1`. -/
theorem C3_lower_bound_bounded (B T : ℤ) (N : ℕ)
    (hB : 0 < B) (hB2 : B ≤ 10 ^ 15) (hT : 0 < T) (hT2 : T ≤ 10 ^ 15) (hN : N ≤ 15)
    (p : Dec) (pr : Option ℤ) (ok : Bool)
    (h : calculate_safe_adjustment (some B) (some T) N = (some p, pr, ok)) :
    exactLower B T ≤ val p := by
  obtain ⟨_, _, hL, _⟩ := solve_regime_inv B T N hB hB2 hT hT2 hN p pr ok h
  exact hL

/-- C3 witness: the amended lower-bound theorem applied at `B = 4`, `T = 5`,
`N = 13`. -/
theorem C3_lower_bound_bounded_witness :
    exactLower 4 5 ≤ val ⟨2500000000001, -13⟩ :=
  C3_lower_bound_bounded 4 5 13 (by norm_num) (by norm_num) (by norm_num) (by norm_num)
    (by norm_num) ⟨2500000000001, -13⟩ (some 5) true (by decide)

/-- C4 (original claim, refuted): at `B = 1000`, `T = 999`, `N = 13` the
step-4 candidate is strictly below `lower + EPS` (here
`lower + EPS = -0.001 + 10^-15`): `quantize(..., ROUND_UP)` rounds away
from zero, which for this negative candidate is downward, not the claimed
ceiling toward positive infinity. -/
theorem C4_counterexample :
    candidate0 1000 999 13 = some ⟨-10000000000, -13⟩ ∧
    val ⟨-10000000000, -13⟩ < exactLower 1000 999 + (10 : ℚ) ^ (-(15 : ℤ)) := by
  constructor
  · decide
  · rw [val_mk]
    unfold exactLower
    push_cast
    norm_num

/-- C4 (amended, proved): the quantize step rounds away from zero, not
toward positive infinity: any result `c` of `qntzUp N v` has exponent `-N`
and is the smallest quantum multiple `≥ v` when `v ≥ 0`, but the largest
quantum multiple `≤ v` when `v < 0`. -/
theorem C4_quantize_away_from_zero (N : ℕ) (v c : Dec) (h : qntzUp N v = some c) :
    c.e = -(N : ℤ) ∧
    (0 ≤ val v → val v ≤ val c ∧
      ∀ m : ℤ, val v ≤ (m : ℚ) * (10 : ℚ) ^ (-(N : ℤ)) →
        val c ≤ (m : ℚ) * (10 : ℚ) ^ (-(N : ℤ))) ∧
    (val v < 0 → val c ≤ val v ∧
      ∀ m : ℤ, (m : ℚ) * (10 : ℚ) ^ (-(N : ℤ)) ≤ val v →
        (m : ℚ) * (10 : ℚ) ^ (-(N : ℤ)) ≤ val c) :=
  ⟨(qntzUp_char N v c h).1,
   fun hv => ⟨qntzUp_ge N v c h hv, fun m hm => qntzUp_min N v c h hv m hm⟩,
   fun hv => ⟨qntzUp_le_neg N v c h hv, fun m hm => qntzUp_max_neg N v c h hv m hm⟩⟩

/-- C4 witness: the quantize characterisation applied at `N = 0`,
`v = 1.5`, where the result is `2`. -/
theorem C4_quantize_away_from_zero_witness :
    qntzUp 0 ⟨15, -1⟩ = some ⟨2, 0⟩ ∧ val ⟨15, -1⟩ ≤ val ⟨2, 0⟩ :=
  ⟨by decide,
   ((C4_quantize_away_from_zero 0 ⟨15, -1⟩ ⟨2, 0⟩ (by decide)).2.1
      (by
        rw [val_mk]
        have := tenq_pos (-1 : ℤ)
        push_cast
        positivity)).1⟩

/-- C5 (original claim, refuted): at `B = 2`, `T = 10^40`, `N = 13` — an
integer input with `B ≠ 0` — the solver does NOT return a non-none
candidate/proof pair: the quantize step raises (the candidate coefficient
would exceed the 50-digit context), the exception is caught, and
`(none, none, false)` is returned. -/
theorem C5_counterexample :
    (2 : ℤ) ≠ 0 ∧
    calculate_safe_adjustment (some 2) (some (10 ^ 40)) 13 = (none, none, false) := by
  constructor
  · decide
  · decide

/-- C5 (amended, proved): whenever the solver returns a non-none factor,
the run had exactly one of two shapes — no bump, or a single one-quantum
bump — and in both the returned validity flag is `decide (proof = T)`,
also when the (possibly bumped) trial still misses `T`. -/
theorem C5_bump_at_most_once (b t : ℤ) (N : ℕ) (p : Dec) (pr : Option ℤ) (ok : Bool)
    (h : calculate_safe_adjustment (some b) (some t) N = (some p, pr, ok)) :
    ∃ prv : ℤ, pr = some prv ∧ ok = decide (prv = t) ∧
      ∃ c0 : Dec, candidate0 b t N = some c0 ∧
        ((¬ truncD (trialOf b c0) < t ∧ p = c0 ∧ prv = truncD (trialOf b c0)) ∨
         (truncD (trialOf b c0) < t ∧ qntzUp N (add50 c0 (quantum N)) = some p ∧
           prv = truncD (trialOf b p))) := by
  obtain ⟨hb, prv, hpr, hbody⟩ := solve_some_inv b t N p pr ok h
  obtain ⟨c0, hc0, hcase, hok⟩ := calcBody_cases b t N p prv ok hbody
  exact ⟨prv, hpr, hok, c0, hc0, hcase⟩

/-- C5 witness: the bump-shape theorem applied at `b = 5`, `t = 7`,
`N = 13`. -/
theorem C5_bump_at_most_once_witness :
    ∃ prv : ℤ, (some (7 : ℤ)) = some prv ∧ (true = decide (prv = 7)) ∧
      ∃ c0 : Dec, candidate0 5 7 13 = some c0 ∧
        ((¬ truncD (trialOf 5 c0) < 7 ∧ (⟨4000000000001, -13⟩ : Dec) = c0 ∧
            prv = truncD (trialOf 5 c0)) ∨
         (truncD (trialOf 5 c0) < 7 ∧
            qntzUp 13 (add50 c0 (quantum 13)) = some ⟨4000000000001, -13⟩ ∧
            prv = truncD (trialOf 5 ⟨4000000000001, -13⟩))) :=
  C5_bump_at_most_once 5 7 13 ⟨4000000000001, -13⟩ (some 7) true (by decide)

/-- C6 (confirmed): the solver returns `(none, none, false)` when the base
is missing, when the target is missing, and when the base is zero. -/
theorem C6_missing_or_zero_guards (B T : Option ℤ) (t : ℤ) (N : ℕ) :
    calculate_safe_adjustment none T N = (none, none, false) ∧
    calculate_safe_adjustment B none N = (none, none, false) ∧
    calculate_safe_adjustment (some 0) (some t) N = (none, none, false) :=
  ⟨solve_none_left T N, solve_none_right B N, solve_zero t N⟩

/-- C7 (confirmed): failure is always a data outcome, never a thrown
fault: an exception escaping the solver body (modelled as
`calcBody = none`) is converted into `(none, none, false)`, and on every
input the solver returns either that failure triple or a fully populated
success triple. -/
theorem C7_exceptions_absorbed (B T : Option ℤ) (N : ℕ) :
    (∀ b t : ℤ, B = some b → T = some t → b ≠ 0 → calcBody b t N = none →
      calculate_safe_adjustment B T N = (none, none, false)) ∧
    (calculate_safe_adjustment B T N = (none, none, false) ∨
      ∃ p : Dec, ∃ pr : ℤ, ∃ ok : Bool,
        calculate_safe_adjustment B T N = (some p, some pr, ok)) := by
  constructor
  · intro b t hb ht hbz hnone
    rw [hb, ht]
    exact solve_body_none b t N hbz hnone
  · cases B with
    | none => exact Or.inl (solve_none_left T N)
    | some b =>
      cases T with
      | none => exact Or.inl (solve_none_right (some b) N)
      | some t =>
        by_cases hbz : b = 0
        · rw [hbz]
          exact Or.inl (solve_zero t N)
        · cases hc : calcBody b t N with
          | none => exact Or.inl (solve_body_none b t N hbz hc)
          | some z =>
            obtain ⟨p, pr, ok⟩ := z
            exact Or.inr ⟨p, pr, ok, solve_body_some b t N hbz p pr ok hc⟩

/-- C8 (original claim, refuted): conversion does not reject values with a
nonzero fractional part: on the numeric value 5/2 `safe_decimal_int`
silently returns the truncated integer 2 instead of a missing value, even
though 5/2 is not an exact integer. -/
theorem C8_counterexample :
    safe_decimal_int (PyValue.numeric (5 / 2)) = some 2 ∧
    ¬ ∃ n : ℤ, ((5 : ℚ) / 2) = (n : ℚ) := by
  constructor
  · have h1 : safe_decimal_int (PyValue.numeric (5 / 2)) = some (truncQ (5 / 2)) := rfl
    have h2 : truncQ ((5 : ℚ) / 2) = 2 := by
      unfold truncQ
      rw [if_neg (by norm_num)]
      norm_num
    rw [h1, h2]
  · rintro ⟨n, hn⟩
    have h2 : (5 : ℚ) = 2 * (n : ℚ) := by
      field_simp at hn
      linarith
    have h3 : (5 : ℤ) = 2 * n := by exact_mod_cast h2
    omega

/-- C8 (amended, proved): `safe_decimal_int` maps a missing value and a
malformed value to `none`, and a numeric value to its truncation toward
zero — in particular it is lossless exactly on exact integers, which it
returns unchanged. -/
theorem C8_conversion_truncates (v : ℚ) (n : ℤ) (hv : v = (n : ℚ)) :
    safe_decimal_int (PyValue.numeric v) = some n ∧
    safe_decimal_int PyValue.na = none ∧
    safe_decimal_int PyValue.malformed = none := by
  refine ⟨?_, rfl, rfl⟩
  have h1 : safe_decimal_int (PyValue.numeric v) = some (truncQ v) := rfl
  rw [h1, hv, truncQ_intCast]

/-- C8 witness: the conversion theorem applied at the exact integer 7. -/
theorem C8_conversion_truncates_witness :
    safe_decimal_int (PyValue.numeric 7) = some 7 ∧
    safe_decimal_int PyValue.na = none ∧
    safe_decimal_int PyValue.malformed = none :=
  C8_conversion_truncates 7 7 (by norm_num)

/-- C9 (original claim, refuted): at `B = -100`, `T = 100`, `N = 13` the
solver does NOT produce a missing/invalid outcome: it returns the factor
`-2` with proof quantity `100` and `valid = true` — a negative base passes
the guards untouched. -/
theorem C9_counterexample :
    calculate_safe_adjustment (some (-100)) (some 100) 13
      = (some ⟨-20000000000000, -13⟩, some 100, true) ∧
    (calculate_safe_adjustment (some (-100)) (some 100) 13).2.2 ≠ false := by
  constructor
  · decide
  · decide

/-- C9 (amended, proved): the only base guard is `B = 0`: a negative base
is processed like any nonzero base, and whatever triple the solver body
produces is returned as a success. -/
theorem C9_negative_base_not_guarded (b t : ℤ) (N : ℕ) (hb : b < 0)
    (p : Dec) (pr : ℤ) (ok : Bool) (h : calcBody b t N = some (p, pr, ok)) :
    calculate_safe_adjustment (some b) (some t) N = (some p, some pr, ok) :=
  solve_body_some b t N (by omega) p pr ok h

/-- C9 witness: the negative-base theorem applied at `b = -100`,
`t = 100`, `N = 13`. -/
theorem C9_negative_base_not_guarded_witness :
    calculate_safe_adjustment (some (-100)) (some 100) 13
      = (some ⟨-20000000000000, -13⟩, some 100, true) :=
  C9_negative_base_not_guarded (-100) 100 13 (by norm_num)
    ⟨-20000000000000, -13⟩ 100 true (by decide)

/-- C10 (confirmed, implicit): result-shape invariant — the optional
factor and the optional proof quantity are `none` together; when they are
present the validity flag is true exactly when the proof quantity equals
the integer target; and `valid = true` implies both are present. -/
theorem C10_result_shape (B T : Option ℤ) (N : ℕ) :
    ((calculate_safe_adjustment B T N).1 = none ↔
      (calculate_safe_adjustment B T N).2.1 = none) ∧
    (∀ p : Dec, ∀ pr : ℤ, ∀ ok : Bool,
      calculate_safe_adjustment B T N = (some p, some pr, ok) →
      ∃ t : ℤ, T = some t ∧ (ok = true ↔ pr = t)) ∧
    ((calculate_safe_adjustment B T N).2.2 = true →
      (calculate_safe_adjustment B T N).1 ≠ none ∧
      (calculate_safe_adjustment B T N).2.1 ≠ none) := by
  cases B with
  | none =>
    rw [solve_none_left]
    refine ⟨by simp, ?_, by simp⟩
    intro p pr ok h
    exact absurd (congrArg Prod.fst h) (by simp)
  | some b =>
    cases T with
    | none =>
      rw [solve_none_right]
      refine ⟨by simp, ?_, by simp⟩
      intro p pr ok h
      exact absurd (congrArg Prod.fst h) (by simp)
    | some t =>
      by_cases hbz : b = 0
      · rw [hbz, solve_zero]
        refine ⟨by simp, ?_, by simp⟩
        intro p pr ok h
        exact absurd (congrArg Prod.fst h) (by simp)
      · cases hc : calcBody b t N with
        | none =>
          rw [solve_body_none b t N hbz hc]
          refine ⟨by simp, ?_, by simp⟩
          intro p pr ok h
          exact absurd (congrArg Prod.fst h) (by simp)
        | some z =>
          obtain ⟨p0, pr0, ok0⟩ := z
          have hok0 : ok0 = decide (pr0 = t) := by
            obtain ⟨c0, _, _, hok⟩ := calcBody_cases b t N p0 pr0 ok0 hc
            exact hok
          rw [solve_body_some b t N hbz p0 pr0 ok0 hc]
          refine ⟨by simp, ?_, by simp⟩
          intro p pr ok h
          have hpr : some pr0 = some pr := congrArg (fun w => w.2.1) h
          have hok : ok0 = ok := congrArg (fun w => w.2.2) h
          rw [Option.some_inj] at hpr
          refine ⟨t, rfl, ?_⟩
          rw [← hok, ← hpr, hok0]
          simp

end IPF
